import Mathlib

/-!
Verification of the adaptive learning core of the tomas-engine agent
(perception → rule discovery → affect → memory pipeline).

Python floats are modelled as rationals (`ℚ`): every arithmetic step the
claims depend on is a `+`/`-`/`*` of small decimal constants together with
`min`/`max` clamps, whose ordering behaviour is identical in exact and in
floating-point arithmetic.

Machine integers: `numpy` converts grids to `int32`; where that matters the
wrap-around is made explicit with `% 2^32`.
-/

/- ===================================================================
   Logos: HumanPsychologyEngine (src/agents/tomas_engine/nucleus/logos.py)
   =================================================================== -/

namespace Logos

/-- Progress classification fed into `update_psychology`.  The Python code
branches on the strings `MAJOR_PROGRESS` / `MINOR_PROGRESS` / `VALID_ACTION`
and treats every other string as the `NO_EFFECT` case. -/
inductive ProgressType where
  | MAJOR_PROGRESS
  | MINOR_PROGRESS
  | VALID_ACTION
  | NO_EFFECT
deriving DecidableEq, Repr

/-- Curiosity decay per progress type, from `update_psychology`
(logos.py lines 173-179): 0.005 under progress, 0.015 for a valid
action, 0.025 otherwise. -/
def curiosityDecay : ProgressType → ℚ
  | .MAJOR_PROGRESS => 5/1000
  | .MINOR_PROGRESS => 5/1000
  | .VALID_ACTION => 15/1000
  | .NO_EFFECT => 25/1000

/-- `self.curiosity_level = max(0.1, self.curiosity_level - curiosity_decay)`
(logos.py line 181). -/
def updateCuriosity (c : ℚ) (p : ProgressType) : ℚ :=
  max (1/10) (c - curiosityDecay p)

/-- Initial curiosity set in `HumanPsychologyEngine.__init__`
(logos.py line 33): `self.curiosity_level = 0.8`. -/
def initialCuriosity : ℚ := 8/10

/-- Curiosity after a sequence of `update_psychology` calls with the given
progress types (only the curiosity component of the update is tracked;
no other state influences it). -/
def curiosityAfter (c : ℚ) (ps : List ProgressType) : ℚ :=
  ps.foldl updateCuriosity c

theorem curiosityDecay_pos (p : ProgressType) : 0 < curiosityDecay p := by
  cases p <;> norm_num [curiosityDecay]

theorem updateCuriosity_le (c : ℚ) (h : 1/10 ≤ c) (p : ProgressType) :
    updateCuriosity c p ≤ c := by
  have := curiosityDecay_pos p
  unfold updateCuriosity
  rw [max_le_iff]
  constructor
  · exact h
  · linarith

theorem updateCuriosity_floor (c : ℚ) (p : ProgressType) :
    1/10 ≤ updateCuriosity c p := le_max_left _ _

theorem curiosityAfter_floor (c : ℚ) (h : 1/10 ≤ c) (ps : List ProgressType) :
    1/10 ≤ curiosityAfter c ps := by
  induction ps generalizing c with
  | nil => exact h
  | cons p ps ih => exact ih _ (updateCuriosity_floor c p)

theorem curiosityAfter_le (c : ℚ) (h : 1/10 ≤ c) (ps : List ProgressType) :
    curiosityAfter c ps ≤ c := by
  induction ps generalizing c with
  | nil => exact le_refl c
  | cons p ps ih =>
      have h1 : 1/10 ≤ updateCuriosity c p := updateCuriosity_floor c p
      exact le_trans (ih _ h1) (updateCuriosity_le c h p)

end Logos

/-- Claim C10: across every sequence of `update_psychology` calls with any
progress types, `curiosity_level` never increases (each further update can
only lower it) and never falls below the floor 0.1, so it always lies in
`[0.1, initial]`, provided the initial value is at least 0.1 (the code
initialises it to 0.8). -/
theorem C10_curiosity_never_increases_and_floored
    (c : ℚ) (hc : 1/10 ≤ c) (ps : List Logos.ProgressType) :
    (∀ p : Logos.ProgressType,
        Logos.curiosityAfter c (ps ++ [p]) ≤ Logos.curiosityAfter c ps) ∧
    1/10 ≤ Logos.curiosityAfter c ps ∧
    Logos.curiosityAfter c ps ≤ c := by
  refine ⟨?_, Logos.curiosityAfter_floor c hc ps, Logos.curiosityAfter_le c hc ps⟩
  intro p
  have hfl : 1/10 ≤ Logos.curiosityAfter c ps := Logos.curiosityAfter_floor c hc ps
  have : Logos.curiosityAfter c (ps ++ [p])
      = Logos.updateCuriosity (Logos.curiosityAfter c ps) p := by
    simp [Logos.curiosityAfter, List.foldl_append]
  rw [this]
  exact Logos.updateCuriosity_le _ hfl p

namespace Logos

/-- The five behavioral modes of `HumanPsychologyEngine.mental_states`. -/
inductive Mode where
  | exploring
  | pattern_seeking
  | hypothesis_testing
  | optimization
  | frustrated
deriving DecidableEq, Repr

/-- The scalar readings of the psychology engine that
`_calculate_ideal_state` consults.  A sequence of psychology updates is
modelled as an arbitrary sequence of such readings: the mode state machine
observes nothing else, so proving the claim for arbitrary readings covers
every sequence of `update_psychology` calls. -/
structure PsychSnapshot where
  frustration : ℚ
  consecutive_no_progress : ℕ
  consecutive_failures : ℕ
  confidence : ℚ
  recent_success_rate : ℚ
  successful_actions : ℕ
  curiosity_level : ℚ
deriving Repr

/-- `_calculate_ideal_state` (logos.py lines 400-428): fixed priority order
frustrated → optimization → hypothesis_testing → pattern_seeking →
exploring. -/
def calculateIdealState (s : PsychSnapshot) : Mode :=
  if s.frustration > 7/10 then .frustrated
  else if s.consecutive_no_progress > 8 then .frustrated
  else if s.consecutive_failures > 4 then .frustrated
  else if s.confidence > 8/10 ∧ s.recent_success_rate > 6/10 then .optimization
  else if s.confidence > 5/10 ∧ s.successful_actions > 1 then .hypothesis_testing
  else if s.curiosity_level < 5/10 ∧ s.successful_actions > 0 then .pattern_seeking
  else .exploring

/-- The mode-related state of `HumanPsychologyEngine`. -/
structure ModeState where
  current_state : Mode
  turns_in_current_state : ℕ
  pending_state_change : Option Mode
  state_change_confidence : ℕ
deriving DecidableEq, Repr

/-- `self.state_stability_threshold = 3` (logos.py line 48). -/
def state_stability_threshold : ℕ := 3

/-- Initial mode state from `__init__` (logos.py lines 46-50). -/
def initialModeState : ModeState :=
  { current_state := .exploring
    turns_in_current_state := 0
    pending_state_change := none
    state_change_confidence := 0 }

/-- `_stable_transition_mental_state` (logos.py lines 357-398), given the
ideal mode computed by `_calculate_ideal_state`. -/
def stableTransition (st : ModeState) (ideal : Mode) : ModeState :=
  if ideal ≠ st.current_state then
    if st.pending_state_change = some ideal then
      let conf := st.state_change_confidence + 1
      if conf ≥ state_stability_threshold then
        { current_state := ideal
          turns_in_current_state := 0
          pending_state_change := none
          state_change_confidence := 0 }
      else
        { st with state_change_confidence := conf }
    else
      { st with pending_state_change := some ideal, state_change_confidence := 1 }
  else
    { st with pending_state_change := none, state_change_confidence := 0 }

/-- One `update_psychology` call as seen by the mode machinery:
`turns_in_current_state` is incremented at the top of the call and
`_stable_transition_mental_state` runs at its end. -/
def updateMode (st : ModeState) (s : PsychSnapshot) : ModeState :=
  stableTransition
    { st with turns_in_current_state := st.turns_in_current_state + 1 }
    (calculateIdealState s)

/-- The mode state after processing a sequence of psychology updates. -/
def runMode (ss : List PsychSnapshot) : ModeState :=
  ss.foldl updateMode initialModeState

/-- Invariant tying `pending_state_change` / `state_change_confidence` to the
history of ideal-mode computations: the counter is at most
`state_stability_threshold - 1`, a pending target differs from the current
mode, and exactly the last `state_change_confidence` updates computed that
pending target as their ideal mode. -/
def ModeInv (st : ModeState) (ss : List PsychSnapshot) : Prop :=
  st.state_change_confidence + 1 ≤ state_stability_threshold ∧
  (match st.pending_state_change with
   | none => st.state_change_confidence = 0
   | some m =>
       m ≠ st.current_state ∧
       1 ≤ st.state_change_confidence ∧
       ∃ ss₁ rest, ss = ss₁ ++ rest ∧ rest.length = st.state_change_confidence ∧
         ∀ x ∈ rest, calculateIdealState x = m)

theorem modeInv_initial : ModeInv initialModeState [] := by
  refine ⟨by norm_num [initialModeState, state_stability_threshold], ?_⟩
  simp [initialModeState]

theorem modeInv_step (st : ModeState) (ss : List PsychSnapshot)
    (h : ModeInv st ss) (s : PsychSnapshot) :
    ModeInv (updateMode st s) (ss ++ [s]) := by
  obtain ⟨cur, turns, pending, conf⟩ := st
  obtain ⟨hb, hp⟩ := h
  simp only [ModeInv] at hp ⊢
  simp only [updateMode, stableTransition]
  by_cases hne : calculateIdealState s = cur
  · simp only [hne, ne_eq, not_true_eq_false, if_false, ite_false]
    exact ⟨by norm_num [state_stability_threshold], by trivial⟩
  · simp only [ne_eq, hne, not_false_eq_true, if_true, ite_true]
    cases pending with
    | none =>
        simp only [reduceCtorEq, if_false, ite_false]
        refine ⟨by norm_num [state_stability_threshold],
          hne, le_refl 1, ss, [s], rfl, rfl, ?_⟩
        intro x hx; simp at hx; subst hx; rfl
    | some pm =>
        by_cases hpm : pm = calculateIdealState s
        · subst hpm
          simp only [Option.some.injEq, if_pos, ite_true]
          obtain ⟨hmne, hone, ss₁, rest, hsplit, hlen, hall⟩ := hp
          by_cases hth : conf + 1 ≥ state_stability_threshold
          · simp only [ge_iff_le, hth, if_true, ite_true]
            exact ⟨by norm_num [state_stability_threshold], by trivial⟩
          · simp only [ge_iff_le, hth, if_false, ite_false]
            refine ⟨by simp only [state_stability_threshold] at hth ⊢; omega, hne, by omega,
              ss₁, rest ++ [s], by rw [hsplit, List.append_assoc], ?_, ?_⟩
            · simp [hlen]
            · intro x hx
              rcases List.mem_append.mp hx with hx | hx
              · exact hall x hx
              · simp at hx; subst hx; rfl
        · simp only [Option.some.injEq, hpm, if_false, ite_false]
          refine ⟨by norm_num [state_stability_threshold],
            hne, le_refl 1, ss, [s], rfl, rfl, ?_⟩
          intro x hx; simp at hx; subst hx; rfl

theorem modeInv_run (ss : List PsychSnapshot) : ModeInv (runMode ss) ss := by
  induction ss using List.reverseRecOn with
  | nil => exact modeInv_initial
  | append_singleton ss s ih =>
      have : runMode (ss ++ [s]) = updateMode (runMode ss) s := by
        simp [runMode, List.foldl_append]
      rw [this]
      exact modeInv_step _ _ ih s

end Logos

/-- Claim C2: for every sequence of psychology updates, the behavioral mode
(`current_state`) changes only after the computed ideal mode has equalled the
same target mode for at least `state_stability_threshold` (3) consecutive
updates — whenever an update changes the mode, the new mode is the ideal mode
of that update and also of the two updates immediately preceding it; and if
the ideal mode reverts to the current mode before the threshold is reached,
the pending switch is abandoned and the counter reset. -/
theorem C2_mode_switch_needs_stability
    (ss : List Logos.PsychSnapshot) (s : Logos.PsychSnapshot) :
    ((Logos.updateMode (Logos.runMode ss) s).current_state
        ≠ (Logos.runMode ss).current_state →
      (Logos.updateMode (Logos.runMode ss) s).current_state
          = Logos.calculateIdealState s ∧
      ∃ ss₁ s₁ s₂, ss = ss₁ ++ [s₁, s₂] ∧
        Logos.calculateIdealState s₁ = Logos.calculateIdealState s ∧
        Logos.calculateIdealState s₂ = Logos.calculateIdealState s) ∧
    (Logos.calculateIdealState s = (Logos.runMode ss).current_state →
      (Logos.updateMode (Logos.runMode ss) s).pending_state_change = none ∧
      (Logos.updateMode (Logos.runMode ss) s).state_change_confidence = 0) := by
  have hinv := Logos.modeInv_run ss
  rcases hrm : Logos.runMode ss with ⟨cur, turns, pending, conf⟩
  rw [hrm] at hinv
  obtain ⟨hb, hp⟩ := hinv
  simp only [Logos.ModeInv] at hp
  constructor
  case right =>
    intro hrev
    simp only [Logos.updateMode, Logos.stableTransition, hrev]
    simp
  intro hchange
  simp only [Logos.updateMode, Logos.stableTransition] at hchange ⊢
  by_cases hne : Logos.calculateIdealState s = cur
  · simp only [hne, ne_eq, not_true_eq_false, if_false, ite_false] at hchange
  · simp only [ne_eq, hne, not_false_eq_true, if_true, ite_true] at hchange ⊢
    cases pending with
    | none =>
        simp only [reduceCtorEq, if_false, ite_false] at hchange
        exact absurd (by trivial) hchange
    | some pm =>
        by_cases hpm : pm = Logos.calculateIdealState s
        · subst hpm
          simp only [Option.some.injEq, if_pos, ite_true] at hchange ⊢
          obtain ⟨hmne, hone, ss₁, rest, hsplit, hlen, hall⟩ := hp
          by_cases hth : conf + 1 ≥ Logos.state_stability_threshold
          · simp only [ge_iff_le, hth, if_true, ite_true]
            refine ⟨by trivial, ?_⟩
            have hconf2 : conf = 2 := by
              simp only [Logos.state_stability_threshold] at hb hth; omega
            rw [hconf2] at hlen
            match rest, hlen with
            | [s₁, s₂], _ =>
              exact ⟨ss₁, s₁, s₂, hsplit, hall s₁ (by simp), hall s₂ (by simp)⟩
          · simp only [ge_iff_le, hth, if_false, ite_false] at hchange
            exact absurd (by trivial) hchange
        · simp only [Option.some.injEq, hpm, if_false, ite_false] at hchange
          exact absurd (by trivial) hchange

/-- Witness for C2: three consecutive high-frustration updates starting from
the initial state switch the mode to `frustrated`, and the claim's
conclusion identifies the three supporting updates. -/
theorem C2_mode_switch_needs_stability_witness :
    (Logos.updateMode (Logos.runMode [⟨1, 0, 0, 0, 0, 0, 1⟩, ⟨1, 0, 0, 0, 0, 0, 1⟩])
        ⟨1, 0, 0, 0, 0, 0, 1⟩).current_state
      = Logos.calculateIdealState ⟨1, 0, 0, 0, 0, 0, 1⟩ ∧
    ∃ ss₁ s₁ s₂,
      ([⟨1, 0, 0, 0, 0, 0, 1⟩, ⟨1, 0, 0, 0, 0, 0, 1⟩] :
          List Logos.PsychSnapshot) = ss₁ ++ [s₁, s₂] ∧
      Logos.calculateIdealState s₁ = Logos.calculateIdealState ⟨1, 0, 0, 0, 0, 0, 1⟩ ∧
      Logos.calculateIdealState s₂ = Logos.calculateIdealState ⟨1, 0, 0, 0, 0, 0, 1⟩ :=
  (C2_mode_switch_needs_stability
    [⟨1, 0, 0, 0, 0, 0, 1⟩, ⟨1, 0, 0, 0, 0, 0, 1⟩] ⟨1, 0, 0, 0, 0, 0, 1⟩).1
    (by
      have hcalc : Logos.calculateIdealState ⟨1, 0, 0, 0, 0, 0, 1⟩
          = Logos.Mode.frustrated := by
        norm_num [Logos.calculateIdealState]
      have h1 : Logos.updateMode Logos.initialModeState ⟨1, 0, 0, 0, 0, 0, 1⟩
          = ⟨.exploring, 1, some .frustrated, 1⟩ := by
        simp [Logos.updateMode, hcalc, Logos.stableTransition, Logos.initialModeState,
          Logos.state_stability_threshold]
      have h2 : Logos.updateMode (⟨.exploring, 1, some .frustrated, 1⟩ : Logos.ModeState)
          ⟨1, 0, 0, 0, 0, 0, 1⟩ = ⟨.exploring, 2, some .frustrated, 2⟩ := by
        simp [Logos.updateMode, hcalc, Logos.stableTransition,
          Logos.state_stability_threshold]
      have hrun : Logos.runMode [⟨1, 0, 0, 0, 0, 0, 1⟩, ⟨1, 0, 0, 0, 0, 0, 1⟩]
          = ⟨.exploring, 2, some .frustrated, 2⟩ := by
        simp [Logos.runMode, h1, h2]
      rw [hrun]
      simp [Logos.updateMode, hcalc, Logos.stableTransition,
        Logos.state_stability_threshold])

/- ===================================================================
   Sophia: NucleiSophia rule engine (src/agents/tomas_engine/nucleus/sophia.py)
   =================================================================== -/

namespace Sophia

/-- The confidence-relevant state of a confirmed `GameRule`. -/
structure RuleConf where
  confidence : ℚ
  level_proven : Bool
deriving Repr

/-- Tiered confidence boost on rule support (`_check_existing_rules`,
sophia.py lines 209-217): 0.02 above 0.8, 0.05 above 0.6, else 0.08. -/
def supportBoost (c : ℚ) : ℚ :=
  if c ≥ 8/10 then 2/100 else if c ≥ 6/10 then 5/100 else 8/100

/-- Rule support update (sophia.py lines 219, 238):
`confidence = min(1.0, confidence + boost)` plus, when the last confirmations
are closely spaced, a reinforcement bonus `min(1.0, confidence + 0.03)`.
Whether the bonus fires depends on turn numbers parsed out of the evidence
strings; it is passed in as a boolean. -/
def supportUpdate (c : ℚ) (bonus : Bool) : ℚ :=
  let c1 := min 1 (c + supportBoost c)
  if bonus then min 1 (c1 + 3/100) else c1

/-- Rule contradiction penalty (sophia.py line 249):
`confidence = max(0.1, confidence - 0.1)`. -/
def contradictionUpdate (c : ℚ) : ℚ := max (1/10) (c - 1/10)

/-- `_apply_gradual_degradation` for one rule (sophia.py lines 937-1014),
parameterised by the number of turns since the rule was last confirmed. -/
def degradationUpdate (r : RuleConf) (turnsSince : ℤ) : RuleConf :=
  if r.level_proven then
    if turnsSince > 25 then
      let rate := (1/1000) * ((turnsSince : ℚ) - 25)
      let amount := min (1/100) rate
      { r with confidence := max (7/10) (r.confidence - amount) }
    else r
  else
    if turnsSince > 10 then
      let amount :=
        if r.confidence ≥ 8/10 then min (3/100) ((5/1000) * ((turnsSince : ℚ) - 10))
        else if r.confidence ≥ 6/10 then min (5/100) ((1/100) * ((turnsSince : ℚ) - 10))
        else min (8/100) ((15/1000) * ((turnsSince : ℚ) - 10))
      { r with confidence := max (4/10) (r.confidence - amount) }
    else r

/-- Cross-validation penalty applied to the weaker of two inconsistent rules
(`_cross_validate_rules`, sophia.py line 1048):
`confidence = max(0.2, confidence - 0.05)`. -/
def crossValidationPenalty (c : ℚ) : ℚ := max (2/10) (c - 5/100)

/-- `_consolidate_proven_rules` boost of a recently-confirmed rule
(sophia.py lines 1377-1383): rules confirmed within the last 10 turns with
confidence at least 0.5 become level-proven and gain
`min(1.0, confidence + 0.15)`. -/
def consolidationUpdate (r : RuleConf) (turnsSince : ℤ) : RuleConf :=
  if turnsSince ≤ 10 ∧ r.confidence ≥ 1/2 then
    { level_proven := true, confidence := min 1 (r.confidence + 15/100) }
  else r

/-- `_consolidate_proven_rules` boost of a hypothesis promoted during the
same level-completion event (sophia.py lines 1403-1404). -/
def consolidatePromotedUpdate (r : RuleConf) : RuleConf :=
  { level_proven := true, confidence := min 1 (r.confidence + 1/10) }

/-- The confidence-updating events a confirmed rule can undergo. -/
inductive RuleEvent where
  | support (bonus : Bool)
  | contradiction
  | degradation (turnsSince : ℤ)
  | crossPenalty
  | consolidation (turnsSince : ℤ)
  | consolidatePromoted

def applyRuleEvent (r : RuleConf) : RuleEvent → RuleConf
  | .support b => { r with confidence := supportUpdate r.confidence b }
  | .contradiction => { r with confidence := contradictionUpdate r.confidence }
  | .degradation t => degradationUpdate r t
  | .crossPenalty => { r with confidence := crossValidationPenalty r.confidence }
  | .consolidation t => consolidationUpdate r t
  | .consolidatePromoted => consolidatePromotedUpdate r

/-- The confidence-updating events an active hypothesis can undergo:
support (`min(1.0, c + 0.1)`, sophia.py line 260), weakening
(`max(0.1, c - 0.1)`, line 266) and merging of a similar observation into an
existing hypothesis (`min(1.0, c + 0.05)`, line 339). -/
inductive HypEvent where
  | support
  | weaken
  | mergeSimilar

def applyHypEvent (c : ℚ) : HypEvent → ℚ
  | .support => min 1 (c + 1/10)
  | .weaken => max (1/10) (c - 1/10)
  | .mergeSimilar => min 1 (c + 5/100)

theorem supportBoost_nonneg (c : ℚ) : 0 ≤ supportBoost c := by
  unfold supportBoost; split_ifs <;> norm_num

theorem supportUpdate_mem (c : ℚ) (h0 : 0 ≤ c) (h1 : c ≤ 1) (b : Bool) :
    0 ≤ supportUpdate c b ∧ supportUpdate c b ≤ 1 := by
  have hb := supportBoost_nonneg c
  unfold supportUpdate
  cases b <;> simp only [Bool.false_eq_true, if_false, if_true, ite_true, ite_false] <;>
    constructor
  · exact le_min (by norm_num) (by linarith)
  · exact min_le_left _ _
  · refine le_min (by norm_num) ?_
    have : (0:ℚ) ≤ min 1 (c + supportBoost c) := le_min (by norm_num) (by linarith)
    linarith
  · exact min_le_left _ _

theorem contradictionUpdate_mem (c : ℚ) (h1 : c ≤ 1) :
    0 ≤ contradictionUpdate c ∧ contradictionUpdate c ≤ 1 := by
  unfold contradictionUpdate
  constructor
  · exact le_trans (by norm_num) (le_max_left _ _)
  · exact max_le (by norm_num) (by linarith)

theorem degradationUpdate_mem (r : RuleConf) (h0 : 0 ≤ r.confidence)
    (h1 : r.confidence ≤ 1) (t : ℤ) :
    0 ≤ (degradationUpdate r t).confidence ∧ (degradationUpdate r t).confidence ≤ 1 := by
  unfold degradationUpdate
  split_ifs with hp h25 h10 h8 h6
  · have hge : (0:ℚ) ≤ (t : ℚ) - 25 := by
      have : (25:ℤ) < t := h25
      have : (25:ℚ) < (t:ℚ) := by exact_mod_cast this
      linarith
    have hamt : 0 ≤ min (1/100 : ℚ) ((1/1000) * ((t : ℚ) - 25)) :=
      le_min (by norm_num) (by nlinarith)
    constructor
    · exact le_trans (by norm_num) (le_max_left _ _)
    · exact max_le (by norm_num) (by linarith)
  · exact ⟨h0, h1⟩
  all_goals try exact ⟨h0, h1⟩
  all_goals {
    have hge : (0:ℚ) ≤ (t : ℚ) - 10 := by
      have : (10:ℤ) < t := h10
      have : (10:ℚ) < (t:ℚ) := by exact_mod_cast this
      linarith
    constructor
    · exact le_trans (by norm_num) (le_max_left _ _)
    · refine max_le (by norm_num) ?_
      have : (0:ℚ) ≤ min (3/100 : ℚ) ((5/1000) * ((t : ℚ) - 10)) :=
        le_min (by norm_num) (by nlinarith)
      have : (0:ℚ) ≤ min (5/100 : ℚ) ((1/100) * ((t : ℚ) - 10)) :=
        le_min (by norm_num) (by nlinarith)
      have : (0:ℚ) ≤ min (8/100 : ℚ) ((15/1000) * ((t : ℚ) - 10)) :=
        le_min (by norm_num) (by nlinarith)
      linarith
  }

theorem crossValidationPenalty_mem (c : ℚ) (h1 : c ≤ 1) :
    0 ≤ crossValidationPenalty c ∧ crossValidationPenalty c ≤ 1 := by
  unfold crossValidationPenalty
  constructor
  · exact le_trans (by norm_num) (le_max_left _ _)
  · exact max_le (by norm_num) (by linarith)

theorem consolidationUpdate_mem (r : RuleConf) (h0 : 0 ≤ r.confidence)
    (h1 : r.confidence ≤ 1) (t : ℤ) :
    0 ≤ (consolidationUpdate r t).confidence ∧
      (consolidationUpdate r t).confidence ≤ 1 := by
  unfold consolidationUpdate
  split_ifs
  · exact ⟨le_min (by norm_num) (by linarith), min_le_left _ _⟩
  · exact ⟨h0, h1⟩

theorem consolidatePromotedUpdate_mem (r : RuleConf) (h0 : 0 ≤ r.confidence) :
    0 ≤ (consolidatePromotedUpdate r).confidence ∧
      (consolidatePromotedUpdate r).confidence ≤ 1 := by
  unfold consolidatePromotedUpdate
  exact ⟨le_min (by norm_num) (by linarith), min_le_left _ _⟩

theorem applyRuleEvent_mem (r : RuleConf) (h0 : 0 ≤ r.confidence)
    (h1 : r.confidence ≤ 1) (e : RuleEvent) :
    0 ≤ (applyRuleEvent r e).confidence ∧ (applyRuleEvent r e).confidence ≤ 1 := by
  cases e with
  | support b => exact supportUpdate_mem r.confidence h0 h1 b
  | contradiction => exact contradictionUpdate_mem r.confidence h1
  | degradation t => exact degradationUpdate_mem r h0 h1 t
  | crossPenalty => exact crossValidationPenalty_mem r.confidence h1
  | consolidation t => exact consolidationUpdate_mem r h0 h1 t
  | consolidatePromoted => exact consolidatePromotedUpdate_mem r h0

theorem applyHypEvent_mem (c : ℚ) (h0 : 0 ≤ c) (h1 : c ≤ 1) (e : HypEvent) :
    0 ≤ applyHypEvent c e ∧ applyHypEvent c e ≤ 1 := by
  cases e with
  | support => exact ⟨le_min (by norm_num) (by linarith), min_le_left _ _⟩
  | weaken =>
      exact ⟨le_trans (by norm_num) (le_max_left _ _),
        max_le (by norm_num) (by linarith)⟩
  | mergeSimilar => exact ⟨le_min (by norm_num) (by linarith), min_le_left _ _⟩

theorem foldRuleEvents_mem (r : RuleConf) (h0 : 0 ≤ r.confidence)
    (h1 : r.confidence ≤ 1) (es : List RuleEvent) :
    0 ≤ (es.foldl applyRuleEvent r).confidence ∧
      (es.foldl applyRuleEvent r).confidence ≤ 1 := by
  induction es generalizing r with
  | nil => exact ⟨h0, h1⟩
  | cons e es ih =>
      obtain ⟨g0, g1⟩ := applyRuleEvent_mem r h0 h1 e
      exact ih _ g0 g1

theorem foldHypEvents_mem (c : ℚ) (h0 : 0 ≤ c) (h1 : c ≤ 1) (es : List HypEvent) :
    0 ≤ es.foldl applyHypEvent c ∧ es.foldl applyHypEvent c ≤ 1 := by
  induction es generalizing c with
  | nil => exact ⟨h0, h1⟩
  | cons e es ih =>
      obtain ⟨g0, g1⟩ := applyHypEvent_mem c h0 h1 e
      exact ih _ g0 g1

end Sophia

/-- Claim C1: for every sequence of observe/update events processed by the
rule engine — support, contradiction, gradual decay, cross-validation
penalty, level-completion consolidation for rules; support, weakening and
similar-observation merging for hypotheses — the confidence of every Rule and
every Hypothesis stays in `[0, 1]` after each update, given it starts in
`[0, 1]`. -/
theorem C1_confidence_clamped_to_unit_interval
    (r : Sophia.RuleConf) (hr0 : 0 ≤ r.confidence) (hr1 : r.confidence ≤ 1)
    (c : ℚ) (hc0 : 0 ≤ c) (hc1 : c ≤ 1)
    (res : List Sophia.RuleEvent) (hes : List Sophia.HypEvent) :
    (0 ≤ (res.foldl Sophia.applyRuleEvent r).confidence ∧
      (res.foldl Sophia.applyRuleEvent r).confidence ≤ 1) ∧
    (0 ≤ hes.foldl Sophia.applyHypEvent c ∧
      hes.foldl Sophia.applyHypEvent c ≤ 1) :=
  ⟨Sophia.foldRuleEvents_mem r hr0 hr1 res,
   Sophia.foldHypEvents_mem c hc0 hc1 hes⟩

/-- Witness for C1: a rule starting at confidence 0.4 run through one event
of each kind, and a hypothesis starting at 0.4 run through all three
hypothesis events, both stay within `[0, 1]`. -/
theorem C1_confidence_clamped_to_unit_interval_witness :
    ((0:ℚ) ≤ (4/10 : ℚ) ∧ (4/10 : ℚ) ≤ 1) ∧
    (0 ≤ (([Sophia.RuleEvent.support true, Sophia.RuleEvent.contradiction,
            Sophia.RuleEvent.degradation 30, Sophia.RuleEvent.crossPenalty,
            Sophia.RuleEvent.consolidation 2, Sophia.RuleEvent.consolidatePromoted]
          ).foldl Sophia.applyRuleEvent ⟨4/10, false⟩).confidence ∧
      (([Sophia.RuleEvent.support true, Sophia.RuleEvent.contradiction,
            Sophia.RuleEvent.degradation 30, Sophia.RuleEvent.crossPenalty,
            Sophia.RuleEvent.consolidation 2, Sophia.RuleEvent.consolidatePromoted]
          ).foldl Sophia.applyRuleEvent ⟨4/10, false⟩).confidence ≤ 1) ∧
    (0 ≤ ([Sophia.HypEvent.support, Sophia.HypEvent.weaken,
            Sophia.HypEvent.mergeSimilar]).foldl Sophia.applyHypEvent (4/10) ∧
      ([Sophia.HypEvent.support, Sophia.HypEvent.weaken,
            Sophia.HypEvent.mergeSimilar]).foldl Sophia.applyHypEvent (4/10) ≤ 1) := by
  refine ⟨⟨by norm_num, by norm_num⟩, ?_, ?_⟩
  · exact (C1_confidence_clamped_to_unit_interval ⟨4/10, false⟩
      (by norm_num) (by norm_num) (4/10) (by norm_num) (by norm_num)
      [Sophia.RuleEvent.support true, Sophia.RuleEvent.contradiction,
        Sophia.RuleEvent.degradation 30, Sophia.RuleEvent.crossPenalty,
        Sophia.RuleEvent.consolidation 2, Sophia.RuleEvent.consolidatePromoted]
      []).1
  · exact (C1_confidence_clamped_to_unit_interval ⟨4/10, false⟩
      (by norm_num) (by norm_num) (4/10) (by norm_num) (by norm_num)
      [] [Sophia.HypEvent.support, Sophia.HypEvent.weaken,
        Sophia.HypEvent.mergeSimilar]).2

namespace Sophia

/-- The relaxed promotion criterion of `_check_hypothesis_promotions`
(sophia.py lines 565-595): three alternative pathways checked in order. -/
def promoteDecision (confidence : ℚ) (evidence_count : ℕ) : Bool :=
  if confidence ≥ 7/10 ∧ evidence_count ≥ 2 then true
  else if confidence ≥ 6/10 ∧ evidence_count ≥ 4 then true
  else if confidence ≥ 5/10 ∧ evidence_count ≥ 6 then true
  else false

/-- The single strict gate the code replaced, quoted in its comment
(sophia.py line 571): `confidence >= 0.8 and evidence_count >= 3`. -/
def oldPromotionGate (confidence : ℚ) (evidence_count : ℕ) : Prop :=
  confidence ≥ 8/10 ∧ evidence_count ≥ 3

instance (c : ℚ) (e : ℕ) : Decidable (oldPromotionGate c e) := by
  unfold oldPromotionGate; infer_instance

end Sophia

/-- Claim C4: a hypothesis is promoted if and only if one of the three
threshold paths holds (confidence ≥ 0.7 with evidence ≥ 2, or ≥ 0.6 with
evidence ≥ 4, or ≥ 0.5 with evidence ≥ 6), and this disjunction is strictly
weaker than the old single gate (confidence ≥ 0.8 and evidence ≥ 3): the
gate implies promotion but confidence 0.7 with evidence 2 is promoted while
failing the gate. -/
theorem C4_promotion_three_paths
    (c : ℚ) (e : ℕ) :
    (Sophia.promoteDecision c e = true ↔
      (c ≥ 7/10 ∧ e ≥ 2) ∨ (c ≥ 6/10 ∧ e ≥ 4) ∨ (c ≥ 5/10 ∧ e ≥ 6)) ∧
    (Sophia.oldPromotionGate c e → Sophia.promoteDecision c e = true) ∧
    (Sophia.promoteDecision (7/10) 2 = true ∧ ¬ Sophia.oldPromotionGate (7/10) 2) := by
  refine ⟨?_, ?_, ?_, ?_⟩
  · unfold Sophia.promoteDecision
    split_ifs with h1 h2 h3
    · simpa using Or.inl h1
    · simpa using Or.inr (Or.inl h2)
    · simpa using Or.inr (Or.inr h3)
    · simp only [Bool.false_eq_true, false_iff]
      tauto
  · intro hg
    obtain ⟨hc, he⟩ := hg
    unfold Sophia.promoteDecision
    rw [if_pos ⟨by linarith, by omega⟩]
  · unfold Sophia.promoteDecision
    rw [if_pos (by norm_num)]
  · unfold Sophia.oldPromotionGate
    push_neg
    intro h
    norm_num at h

/-- Witness for C4: although C4 has no top-level hypothesis, each inner
implication is exercised at a concrete point: the old gate at
(0.8, 3) implies promotion. -/
theorem C4_promotion_three_paths_witness :
    Sophia.promoteDecision (8/10) 3 = true :=
  (C4_promotion_three_paths (8/10) 3).2.1 (by norm_num [Sophia.oldPromotionGate])

/- ===================================================================
   AdvancedSharedMemory (src/agents/tomas_engine/nucleus/shared_memory.py)
   =================================================================== -/

namespace SharedMemory

/-- The fields of a `MemoryExperience` that the capacity-eviction logic
reads.  `timestamp` is the wall-clock time at creation; clustering fields
are irrelevant to the experience-list length and score and are omitted. -/
structure MemoryExperience where
  timestamp : ℚ
  success : Bool
  usage_count : ℕ
deriving Repr, DecidableEq

/-- `self.max_experiences = 200` (shared_memory.py line 87). -/
def max_experiences : ℕ := 200

/-- The removal score of `_manage_memory_size` (shared_memory.py lines
385-391): `age_penalty - usage_bonus - success_bonus` with
`age_penalty = (now - timestamp)/3600 * 0.1`, `usage_bonus = usage_count * 0.2`
and `success_bonus = 0.5` for successful records.  Higher score means more
likely to be removed. -/
def removalScore (now : ℚ) (e : MemoryExperience) : ℚ :=
  (now - e.timestamp) / 3600 * (1/10) - (e.usage_count : ℚ) * (2/10)
    - (if e.success then 1/2 else 0)

/-- The indexed experiences stably sorted by removal score, highest first
(`removal_scores.sort(key=..., reverse=True)`, shared_memory.py line 395). -/
def sortedByRemoval (now : ℚ) (exps : List MemoryExperience) : List (ℕ × ℚ) :=
  (exps.enum.map (fun ie => (ie.1, removalScore now ie.2))).mergeSort
    (fun a b => decide (b.2 ≤ a.2))

/-- Indices scheduled for removal: the first `len - max_experiences` entries
of the descending sort (shared_memory.py lines 398-410). -/
def removalIndices (now : ℚ) (exps : List MemoryExperience) : List ℕ :=
  ((sortedByRemoval now exps).take (exps.length - max_experiences)).map Prod.fst

/-- `_manage_memory_size` restricted to the experience list (shared_memory.py
lines 377-416): when over capacity, remove the over-capacity count of
highest-removal-score records by index (cluster bookkeeping, which does not
touch `self.experiences`, is omitted). -/
def manage_memory_size (now : ℚ) (exps : List MemoryExperience) :
    List MemoryExperience :=
  if exps.length ≤ max_experiences then exps
  else
    (exps.enum.filter (fun ie => ¬ ie.1 ∈ removalIndices now exps)).map Prod.snd

/-- `_add_experience` as far as the experience list is concerned
(shared_memory.py lines 139-155): append, then manage memory size. -/
def add_experience (now : ℚ) (e : MemoryExperience) (exps : List MemoryExperience) :
    List MemoryExperience :=
  manage_memory_size now (exps ++ [e])

/-- A `remember_success` / `remember_failure` call (shared_memory.py lines
104-137): both construct a fresh record with `usage_count = 0` and the given
success flag and feed it to `_add_experience`. -/
inductive RememberEvent where
  | success (now : ℚ)
  | failure (now : ℚ)

def applyRemember (exps : List MemoryExperience) : RememberEvent → List MemoryExperience
  | .success now => add_experience now ⟨now, true, 0⟩ exps
  | .failure now => add_experience now ⟨now, false, 0⟩ exps

/-- The scored index list fed to the sort. -/
def scoredOf (now : ℚ) (exps : List MemoryExperience) : List (ℕ × ℚ) :=
  exps.enum.map (fun ie => (ie.1, removalScore now ie.2))

theorem sortedByRemoval_perm (now : ℚ) (exps : List MemoryExperience) :
    (sortedByRemoval now exps).Perm (scoredOf now exps) :=
  List.mergeSort_perm _ _

theorem scoredOf_map_fst (now : ℚ) (exps : List MemoryExperience) :
    (scoredOf now exps).map Prod.fst = List.range exps.length := by
  unfold scoredOf
  rw [List.map_map]
  have h : (Prod.fst ∘ fun ie : ℕ × MemoryExperience => (ie.1, removalScore now ie.2))
      = Prod.fst := rfl
  rw [h, List.enum_map_fst]

theorem sortedByRemoval_fst_perm (now : ℚ) (exps : List MemoryExperience) :
    ((sortedByRemoval now exps).map Prod.fst).Perm (List.range exps.length) := by
  have h1 := (sortedByRemoval_perm now exps).map Prod.fst
  rw [scoredOf_map_fst] at h1
  exact h1

theorem sortedByRemoval_fst_nodup (now : ℚ) (exps : List MemoryExperience) :
    ((sortedByRemoval now exps).map Prod.fst).Nodup :=
  (sortedByRemoval_fst_perm now exps).nodup_iff.mpr (List.nodup_range _)

theorem sortedByRemoval_length (now : ℚ) (exps : List MemoryExperience) :
    (sortedByRemoval now exps).length = exps.length := by
  rw [(sortedByRemoval_perm now exps).length_eq]
  simp [scoredOf]

theorem sortedByRemoval_pairwise (now : ℚ) (exps : List MemoryExperience) :
    List.Pairwise (fun a b : ℕ × ℚ => b.2 ≤ a.2) (sortedByRemoval now exps) := by
  have h2 : List.Pairwise (fun a b : ℕ × ℚ => decide (b.2 ≤ a.2) = true)
      ((scoredOf now exps).mergeSort (fun a b : ℕ × ℚ => decide (b.2 ≤ a.2))) := by
    apply List.sorted_mergeSort
    · intro a b c hab hbc
      simp only [decide_eq_true_eq] at hab hbc ⊢
      exact le_trans hbc hab
    · intro a b
      simp only [Bool.or_eq_true, decide_eq_true_eq]
      exact le_total b.2 a.2
  exact h2.imp (fun hab => by simpa using hab)

theorem mem_scoredOf (now : ℚ) (exps : List MemoryExperience) (i : ℕ) (e : MemoryExperience)
    (hmem : (i, e) ∈ exps.enum) : (i, removalScore now e) ∈ scoredOf now exps := by
  unfold scoredOf
  exact List.mem_map.mpr ⟨(i, e), hmem, rfl⟩

theorem removalIndices_length (now : ℚ) (exps : List MemoryExperience)
    (h : max_experiences < exps.length) :
    (removalIndices now exps).length = exps.length - max_experiences := by
  unfold removalIndices
  rw [List.length_map, List.length_take, sortedByRemoval_length]
  omega

theorem removalIndices_eq_take (now : ℚ) (exps : List MemoryExperience) :
    removalIndices now exps
      = ((sortedByRemoval now exps).map Prod.fst).take
          (exps.length - max_experiences) := by
  unfold removalIndices
  rw [List.map_take]

theorem removalIndices_nodup (now : ℚ) (exps : List MemoryExperience) :
    (removalIndices now exps).Nodup := by
  rw [removalIndices_eq_take]
  exact (List.take_sublist _ _).nodup (sortedByRemoval_fst_nodup now exps)

theorem removalIndices_subset_range (now : ℚ) (exps : List MemoryExperience) :
    ∀ i ∈ removalIndices now exps, i ∈ List.range exps.length := by
  intro i hi
  rw [removalIndices_eq_take] at hi
  have : i ∈ (sortedByRemoval now exps).map Prod.fst :=
    (List.take_sublist _ _).mem hi
  exact ((sortedByRemoval_fst_perm now exps).mem_iff).mp this

set_option maxRecDepth 4000 in
theorem manage_memory_size_overflow (now : ℚ) (exps : List MemoryExperience)
    (h : max_experiences < exps.length) :
    (manage_memory_size now exps).length = max_experiences ∧
    ∃ removed, exps.Perm (manage_memory_size now exps ++ removed) ∧
      removed.length = exps.length - max_experiences ∧
      ∀ r ∈ removed, ∀ k ∈ manage_memory_size now exps,
        removalScore now k ≤ removalScore now r := by
  have hif : manage_memory_size now exps
      = (exps.enum.filter
          (fun ie => decide (¬ ie.1 ∈ removalIndices now exps))).map Prod.snd := by
    unfold manage_memory_size
    rw [if_neg (by omega)]
  set rIdx := removalIndices now exps with hrIdx
  set p : ℕ × MemoryExperience → Bool := fun ie => decide (ie.1 ∈ rIdx) with hp
  have hnotp : (fun ie : ℕ × MemoryExperience => decide (¬ ie.1 ∈ rIdx))
      = fun ie => !p ie := by
    funext ie
    simp [hp, decide_not]
  rw [hnotp] at hif
  set removedE := exps.enum.filter p with hremE
  set keptE := exps.enum.filter (fun ie => !p ie) with hkeptE
  set removed := removedE.map Prod.snd with hrem
  -- the partition permutation
  have hpart : (removedE ++ keptE).Perm exps.enum := List.filter_append_perm p exps.enum
  have hperm : exps.Perm (manage_memory_size now exps ++ removed) := by
    have h1 : ((removedE ++ keptE).map Prod.snd).Perm (exps.enum.map Prod.snd) :=
      hpart.map Prod.snd
    rw [List.enum_map_snd, List.map_append] at h1
    rw [hif]
    exact (h1.symm.trans List.perm_append_comm)
  -- lengths
  have hremfst : removedE.map Prod.fst
      = (List.range exps.length).filter (fun i => decide (i ∈ rIdx)) := by
    rw [← List.enum_map_fst exps, List.map_filter]
    rfl
  have hfilter_perm : ((List.range exps.length).filter
      (fun i => decide (i ∈ rIdx))).Perm rIdx := by
    rw [List.perm_ext_iff_of_nodup
      ((List.nodup_range _).filter _) (removalIndices_nodup now exps)]
    intro a
    simp only [List.mem_filter, decide_eq_true_eq]
    constructor
    · exact fun hx => hx.2
    · intro hx
      exact ⟨removalIndices_subset_range now exps a hx, hx⟩
  have hremlen : removedE.length = exps.length - max_experiences := by
    have h1 : (removedE.map Prod.fst).length = rIdx.length := by
      rw [hremfst]
      exact hfilter_perm.length_eq
    rw [List.length_map] at h1
    rw [h1, hrIdx, removalIndices_length now exps h]
  have henlen : removedE.length + keptE.length = exps.length := by
    have h1 := hpart.length_eq
    rw [List.length_append, List.enum_length] at h1
    exact h1
  have hkeptlen : (manage_memory_size now exps).length = max_experiences := by
    rw [hif, List.length_map]
    omega
  refine ⟨hkeptlen, removed, hperm, by rw [hrem, List.length_map]; omega, ?_⟩
  -- eviction quality: every removed record scores at least every kept record
  intro r hr k hk
  rw [hrem] at hr
  obtain ⟨ie, hieR, hieRsnd⟩ := List.mem_map.mp hr
  rw [hif] at hk
  obtain ⟨je, hjeK, hjeKsnd⟩ := List.mem_map.mp hk
  obtain ⟨hieEnum, hieP⟩ := List.mem_filter.mp hieR
  obtain ⟨hjeEnum, hjeP⟩ := List.mem_filter.mp hjeK
  have hieIdx : ie.1 ∈ rIdx := by simpa [hp] using hieP
  have hjeIdx : ¬ je.1 ∈ rIdx := by simpa [hp] using hjeP
  set kk := exps.length - max_experiences with hkk
  set sorted := sortedByRemoval now exps with hsorted
  -- the scored pair of any enum entry is in the sorted list
  have hmemsorted : ∀ ae : ℕ × MemoryExperience, ae ∈ exps.enum →
      (ae.1, removalScore now ae.2) ∈ sorted := by
    intro ae hae
    exact (sortedByRemoval_perm now exps).mem_iff.mpr
      (mem_scoredOf now exps ae.1 ae.2 hae)
  -- the removed pair sits in the first kk entries of the sort
  have hremPair : (ie.1, removalScore now ie.2) ∈ sorted.take kk := by
    have h1 : ie.1 ∈ (sorted.take kk).map Prod.fst := by
      rw [List.map_take, hkk, ← removalIndices_eq_take]
      exact hieIdx
    obtain ⟨q, hqmem, hqfst⟩ := List.mem_map.mp h1
    have hq : q = (ie.1, removalScore now ie.2) := by
      refine List.inj_on_of_nodup_map (sortedByRemoval_fst_nodup now exps)
        ((List.take_sublist _ _).mem hqmem) (hmemsorted ie hieEnum) ?_
      simpa using hqfst
    rw [← hq]
    exact hqmem
  -- the kept pair sits after the first kk entries
  have hkeptPair : (je.1, removalScore now je.2) ∈ sorted.drop kk := by
    have h1 := hmemsorted je hjeEnum
    rw [← List.take_append_drop kk sorted] at h1
    rcases List.mem_append.mp h1 with h2 | h2
    · exfalso
      apply hjeIdx
      rw [hrIdx, removalIndices_eq_take, ← List.map_take]
      exact List.mem_map.mpr ⟨_, h2, rfl⟩
    · exact h2
  -- descending order across the take/drop split
  have hpw := sortedByRemoval_pairwise now exps
  rw [← hsorted, ← List.take_append_drop kk sorted, List.pairwise_append] at hpw
  have := hpw.2.2 _ hremPair _ hkeptPair
  simpa [hieRsnd, hjeKsnd] using this

theorem manage_memory_size_length (now : ℚ) (exps : List MemoryExperience) :
    (manage_memory_size now exps).length
      = min exps.length max_experiences := by
  by_cases h : exps.length ≤ max_experiences
  · unfold manage_memory_size
    rw [if_pos h]
    omega
  · rw [(manage_memory_size_overflow now exps (by omega)).1]
    omega

theorem capacity_after_events (exps : List MemoryExperience)
    (h : exps.length ≤ max_experiences) (evs : List RememberEvent) :
    (evs.foldl applyRemember exps).length ≤ max_experiences := by
  induction evs generalizing exps with
  | nil => exact h
  | cons e evs ih =>
      refine ih _ ?_
      cases e <;>
        simp only [applyRemember, add_experience] <;>
        rw [manage_memory_size_length] <;> omega

end SharedMemory

/-- Claim C3: after any number of `remember_success` / `remember_failure`
calls the experience store holds at most `max_experiences` (200) records;
and whenever capacity is exceeded, the eviction keeps exactly
`max_experiences` records and removes exactly the over-capacity count of
records ranked worst under the removal score (age-penalty minus usage-bonus
minus success-bonus): every removed record scores at least as high as every
kept record. -/
theorem C3_capacity_and_worst_eviction
    (exps : List SharedMemory.MemoryExperience)
    (hcap : exps.length ≤ SharedMemory.max_experiences)
    (evs : List SharedMemory.RememberEvent)
    (now : ℚ) (over : List SharedMemory.MemoryExperience)
    (hover : SharedMemory.max_experiences < over.length) :
    (evs.foldl SharedMemory.applyRemember exps).length
        ≤ SharedMemory.max_experiences ∧
    (SharedMemory.manage_memory_size now over).length
        = SharedMemory.max_experiences ∧
    ∃ removed, over.Perm (SharedMemory.manage_memory_size now over ++ removed) ∧
      removed.length = over.length - SharedMemory.max_experiences ∧
      ∀ r ∈ removed, ∀ k ∈ SharedMemory.manage_memory_size now over,
        SharedMemory.removalScore now k ≤ SharedMemory.removalScore now r :=
  ⟨SharedMemory.capacity_after_events exps hcap evs,
   SharedMemory.manage_memory_size_overflow now over hover⟩

/-- Witness for C3: the empty store plus two remember calls stays within
capacity, and a 201-record store is trimmed to 200 by worst-score
eviction. -/
theorem C3_capacity_and_worst_eviction_witness :
    (([SharedMemory.RememberEvent.success 0, SharedMemory.RememberEvent.failure 1]
        ).foldl SharedMemory.applyRemember []).length
        ≤ SharedMemory.max_experiences ∧
    (SharedMemory.manage_memory_size 0
        (List.replicate 201 (⟨0, false, 0⟩ : SharedMemory.MemoryExperience))).length
        = SharedMemory.max_experiences ∧
    ∃ removed,
      (List.replicate 201 (⟨0, false, 0⟩ : SharedMemory.MemoryExperience)).Perm
        (SharedMemory.manage_memory_size 0
          (List.replicate 201 (⟨0, false, 0⟩ : SharedMemory.MemoryExperience))
            ++ removed) ∧
      removed.length
        = (List.replicate 201 (⟨0, false, 0⟩ : SharedMemory.MemoryExperience)).length
            - SharedMemory.max_experiences ∧
      ∀ r ∈ removed, ∀ k ∈ SharedMemory.manage_memory_size 0
          (List.replicate 201 (⟨0, false, 0⟩ : SharedMemory.MemoryExperience)),
        SharedMemory.removalScore 0 k ≤ SharedMemory.removalScore 0 r :=
  C3_capacity_and_worst_eviction [] (by simp [SharedMemory.max_experiences])
    [SharedMemory.RememberEvent.success 0, SharedMemory.RememberEvent.failure 1]
    0 (List.replicate 201 ⟨0, false, 0⟩)
    (by rw [List.length_replicate]; norm_num [SharedMemory.max_experiences])

namespace Sophia

/-- Rule/hypothesis identifier.  The Python id is the string
`f"{STEM}_{n}"` where `STEM` combines the pattern kind and action keyword
and `n = len(confirmed_rules) + len(active_hypotheses)` at creation time
(e.g. sophia.py line 345).  Since `n` is the decimal digit-run after the
last underscore, two such strings are equal exactly when both components
are, so the id is modelled as the pair. -/
structure RuleId where
  stem : String
  count : ℕ
deriving DecidableEq, Repr

/-- `RuleType` enum (sophia.py lines 17-22). -/
inductive RuleType where
  | MOVEMENT
  | INTERACTION
  | STATE_CHANGE
  | WIN_CONDITION
  | CONSTRAINT
deriving DecidableEq, Repr

/-- The `Hypothesis` dataclass fields carried into promotion
(sophia.py lines 40-49). -/
structure HypothesisR where
  rule_type : RuleType
  description : String
  confidence : ℚ
  evidence_count : ℕ
  needs_testing : String
deriving DecidableEq, Repr

/-- The `GameRule` dataclass fields relevant to promotion
(sophia.py lines 25-37). -/
structure GameRule where
  rule_type : RuleType
  description : String
  confidence : ℚ
  evidence_count : ℕ
  last_confirmed : ℕ
  level_proven : Bool
deriving DecidableEq, Repr

/-- Association-list lookup with the same semantics as a Python dict
access keyed by the id. -/
def lookupKV {β : Type} (k : RuleId) : List (RuleId × β) → Option β
  | [] => none
  | kv :: rest => if kv.1 = k then some kv.2 else lookupKV k rest

/-- Python dict assignment `d[k] = v`: overwrite in place when the key
exists, append otherwise. -/
def dictInsert {β : Type} (m : List (RuleId × β)) (k : RuleId) (v : β) :
    List (RuleId × β) :=
  if (lookupKV k m).isSome then
    m.map (fun kv => if kv.1 = k then (k, v) else kv)
  else m ++ [(k, v)]

/-- The rule/hypothesis stores of `NucleiSophia`. -/
structure RulesState where
  confirmed_rules : List (RuleId × GameRule)
  active_hypotheses : List (RuleId × HypothesisR)
  turn_counter : ℕ

/-- `len(self.confirmed_rules) + len(self.active_hypotheses)`, the numeric
suffix used for every generated id. -/
def totalCount (s : RulesState) : ℕ :=
  s.confirmed_rules.length + s.active_hypotheses.length

/-- Hypothesis creation (the `_create_*_hypothesis` family, sophia.py lines
332-544): a new id with suffix `totalCount` is inserted into
`active_hypotheses` unless already present there. -/
def createHyp (stem : String) (h : HypothesisR) (s : RulesState) : RulesState :=
  let id : RuleId := ⟨stem, totalCount s⟩
  if (lookupKV id s.active_hypotheses).isSome then s
  else { s with active_hypotheses := s.active_hypotheses ++ [(id, h)] }

/-- The `GameRule` built by `_promote_hypothesis_to_rule`
(sophia.py lines 546-559): id, category, description, confidence and
evidence count are copied from the hypothesis. -/
def ruleOfHyp (h : HypothesisR) (turn : ℕ) : GameRule :=
  { rule_type := h.rule_type
    description := h.description
    confidence := h.confidence
    evidence_count := h.evidence_count
    last_confirmed := turn
    level_proven := false }

/-- `_promote_hypothesis_to_rule` (sophia.py lines 546-563):
`confirmed_rules[id] = rule; del active_hypotheses[id]`. -/
def promoteHyp (id : RuleId) (s : RulesState) : RulesState :=
  match lookupKV id s.active_hypotheses with
  | none => s
  | some h =>
      { s with
        confirmed_rules :=
          dictInsert s.confirmed_rules id (ruleOfHyp h s.turn_counter)
        active_hypotheses :=
          s.active_hypotheses.filter (fun kv => ¬ kv.1 = id) }

/-- In-place update of an existing hypothesis (support/weaken/merge paths);
keys are untouched. -/
def updateHypData (id : RuleId) (f : HypothesisR → HypothesisR)
    (s : RulesState) : RulesState :=
  { s with active_hypotheses :=
      s.active_hypotheses.map (fun kv => if kv.1 = id then (kv.1, f kv.2) else kv) }

/-- In-place update of an existing rule (support/contradict/decay paths);
keys are untouched. -/
def updateRuleData (id : RuleId) (f : GameRule → GameRule)
    (s : RulesState) : RulesState :=
  { s with confirmed_rules :=
      s.confirmed_rules.map (fun kv => if kv.1 = id then (kv.1, f kv.2) else kv) }

/-- `self.turn_counter += 1` at the top of `process`. -/
def tick (s : RulesState) : RulesState :=
  { s with turn_counter := s.turn_counter + 1 }

/-- The events of a `NucleiSophia` lifetime that touch the two stores. -/
inductive SophiaEvent where
  | createHyp (stem : String) (h : HypothesisR)
  | promote (id : RuleId)
  | updateHyp (id : RuleId) (f : HypothesisR → HypothesisR)
  | updateRule (id : RuleId) (f : GameRule → GameRule)
  | tick

def applyEvent (s : RulesState) : SophiaEvent → RulesState
  | .createHyp stem h => createHyp stem h s
  | .promote id => promoteHyp id s
  | .updateHyp id f => updateHypData id f s
  | .updateRule id f => updateRuleData id f s
  | .tick => tick s

/-- `__init__` (sophia.py lines 76-77, 95): both stores start empty. -/
def initState : RulesState := ⟨[], [], 0⟩

def runEvents (evs : List SophiaEvent) : RulesState :=
  evs.foldl applyEvent initState

/-- All ids present in either store. -/
def allKeys (s : RulesState) : List RuleId :=
  s.confirmed_rules.map Prod.fst ++ s.active_hypotheses.map Prod.fst

/-- Key invariant: ids are pairwise distinct across both stores and every
stored id's numeric suffix is below the current total count. -/
def KeyInv (s : RulesState) : Prop :=
  (allKeys s).Nodup ∧ ∀ k ∈ allKeys s, k.count < totalCount s

theorem lookupKV_eq_none_iff {β : Type} (k : RuleId) (l : List (RuleId × β)) :
    lookupKV k l = none ↔ k ∉ l.map Prod.fst := by
  induction l with
  | nil => simp [lookupKV]
  | cons kv rest ih =>
      obtain ⟨a, b⟩ := kv
      by_cases hk : a = k
      · subst hk
        simp [lookupKV]
      · simp only [lookupKV, hk, if_false, ite_false, List.map_cons, List.mem_cons]
        rw [ih]
        constructor
        · intro hnone hor
          rcases hor with hor | hor
          · exact hk hor.symm
          · exact hnone hor
        · intro hno hmem
          exact hno (Or.inr hmem)

theorem lookupKV_some_mem {β : Type} (k : RuleId) (v : β) (l : List (RuleId × β))
    (h : lookupKV k l = some v) : (k, v) ∈ l ∧ k ∈ l.map Prod.fst := by
  induction l with
  | nil => simp [lookupKV] at h
  | cons kv rest ih =>
      obtain ⟨a, b⟩ := kv
      by_cases hk : a = k
      · subst hk
        simp only [lookupKV, if_pos, ite_true, Option.some.injEq] at h
        subst h
        simp
      · simp only [lookupKV, hk, if_false, ite_false] at h
        obtain ⟨h1, h2⟩ := ih h
        exact ⟨List.mem_cons_of_mem _ h1, by simp [h2]⟩

theorem lookupKV_append_fresh {β : Type} (k : RuleId) (v : β) (l : List (RuleId × β))
    (h : k ∉ l.map Prod.fst) : lookupKV k (l ++ [(k, v)]) = some v := by
  induction l with
  | nil => simp [lookupKV]
  | cons kv rest ih =>
      obtain ⟨a, b⟩ := kv
      simp only [List.map_cons, List.mem_cons] at h
      push_neg at h
      simp only [List.cons_append, lookupKV]
      rw [if_neg (fun heq => h.1 heq.symm)]
      exact ih h.2

theorem lookupKV_filter_ne {β : Type} (k : RuleId) (l : List (RuleId × β)) :
    lookupKV k (l.filter (fun kv => ¬ kv.1 = k)) = none := by
  rw [lookupKV_eq_none_iff]
  intro hmem
  obtain ⟨kv, hkv, hfst⟩ := List.mem_map.mp hmem
  obtain ⟨_, hp⟩ := List.mem_filter.mp hkv
  simp only [decide_not, Bool.not_eq_true', decide_eq_false_iff_not] at hp
  exact hp hfst

set_option maxRecDepth 4000 in
theorem filter_ne_map_fst {β : Type} (l : List (RuleId × β)) (k : RuleId) :
    (l.filter (fun kv => ¬ kv.1 = k)).map Prod.fst
      = (l.map Prod.fst).filter (fun x => ¬ x = k) := by
  rw [List.map_filter]
  rfl

theorem updateKV_map_fst {β : Type} (l : List (RuleId × β)) (id : RuleId)
    (f : β → β) :
    ((l.map (fun kv => if kv.1 = id then (kv.1, f kv.2) else kv)).map Prod.fst)
      = l.map Prod.fst := by
  rw [List.map_map]
  congr 1
  funext kv
  by_cases h : kv.1 = id <;> simp [h]

theorem keyInv_init : KeyInv initState := by
  constructor
  · simp [allKeys, initState]
  · intro k hk
    simp [allKeys, initState] at hk

theorem keyInv_createHyp (stem : String) (h : HypothesisR) (s : RulesState)
    (hinv : KeyInv s) : KeyInv (createHyp stem h s) := by
  obtain ⟨hnd, hct⟩ := hinv
  unfold createHyp
  by_cases hl : (lookupKV ⟨stem, totalCount s⟩ s.active_hypotheses).isSome
  · rw [if_pos hl]
    exact ⟨hnd, hct⟩
  · rw [if_neg hl]
    have hfresh : (⟨stem, totalCount s⟩ : RuleId) ∉ allKeys s := by
      intro hmem
      exact absurd (hct _ hmem) (by simp)
    have hkeys : allKeys { s with active_hypotheses := s.active_hypotheses ++ [(⟨stem, totalCount s⟩, h)] }
        = allKeys s ++ [⟨stem, totalCount s⟩] := by
      simp [allKeys, List.map_append, List.append_assoc]
    constructor
    · rw [hkeys]
      rw [List.nodup_append]
      refine ⟨hnd, List.nodup_singleton _, ?_⟩
      intro a ha hb
      simp only [List.mem_singleton] at hb
      subst hb
      exact hfresh ha
    · intro k hk
      rw [hkeys] at hk
      have htot : totalCount { s with active_hypotheses := s.active_hypotheses ++ [(⟨stem, totalCount s⟩, h)] }
          = totalCount s + 1 := by
        simp [totalCount]
        omega
      rw [htot]
      rcases List.mem_append.mp hk with hk | hk
      · exact Nat.lt_succ_of_lt (hct k hk)
      · simp only [List.mem_singleton] at hk
        subst hk
        exact Nat.lt_succ_self _

theorem promoted_keys_perm (id : RuleId) (s : RulesState) (h : HypothesisR)
    (hnd : (allKeys s).Nodup)
    (hl : lookupKV id s.active_hypotheses = some h) :
    (allKeys { s with
        confirmed_rules :=
          dictInsert s.confirmed_rules id (ruleOfHyp h s.turn_counter)
        active_hypotheses :=
          s.active_hypotheses.filter (fun kv => ¬ kv.1 = id) }).Perm
      (allKeys s) := by
  obtain ⟨hpair, hmemK⟩ := lookupKV_some_mem id h _ hl
  have hdisj := (List.nodup_append.mp hnd).2.2
  have hidrules : id ∉ s.confirmed_rules.map Prod.fst := by
    intro hc
    exact hdisj hc hmemK
  have hins : dictInsert s.confirmed_rules id (ruleOfHyp h s.turn_counter)
      = s.confirmed_rules ++ [(id, ruleOfHyp h s.turn_counter)] := by
    unfold dictInsert
    rw [if_neg (by rw [(lookupKV_eq_none_iff id _).mpr hidrules]; simp)]
  simp only [allKeys, hins, List.map_append]
  rw [filter_ne_map_fst]
  have hh : (s.active_hypotheses.map Prod.fst).Nodup :=
    (List.nodup_append.mp hnd).2.1
  have herase : (s.active_hypotheses.map Prod.fst).filter (fun x => ¬ x = id)
      = (s.active_hypotheses.map Prod.fst).erase id := by
    rw [List.Nodup.erase_eq_filter hh]
    congr 1
    funext x
    rw [decide_not]
    rfl
  have hperm2 : (s.active_hypotheses.map Prod.fst).Perm
      (id :: (s.active_hypotheses.map Prod.fst).erase id) :=
    List.perm_cons_erase hmemK
  have e1 : (s.confirmed_rules.map Prod.fst ++ [(id, ruleOfHyp h s.turn_counter)].map Prod.fst)
        ++ (s.active_hypotheses.map Prod.fst).filter (fun x => ¬ x = id)
      = s.confirmed_rules.map Prod.fst
        ++ ([id] ++ (s.active_hypotheses.map Prod.fst).erase id) := by
    rw [herase, List.append_assoc]
    rfl
  rw [e1]
  exact List.Perm.append_left _ (by simpa using hperm2.symm)

theorem keyInv_promoteHyp (id : RuleId) (s : RulesState)
    (hinv : KeyInv s) : KeyInv (promoteHyp id s) := by
  obtain ⟨hnd, hct⟩ := hinv
  unfold promoteHyp
  cases hl : lookupKV id s.active_hypotheses with
  | none => exact ⟨hnd, hct⟩
  | some h =>
      have hkeysperm := promoted_keys_perm id s h hnd hl
      have htot : totalCount { s with
          confirmed_rules :=
            dictInsert s.confirmed_rules id (ruleOfHyp h s.turn_counter)
          active_hypotheses :=
            s.active_hypotheses.filter (fun kv => ¬ kv.1 = id) }
          = totalCount s := by
        have h1 := hkeysperm.length_eq
        simp only [allKeys, List.length_append, List.length_map] at h1
        simpa [totalCount] using h1
      refine ⟨hkeysperm.nodup_iff.mpr hnd, ?_⟩
      intro k hk
      rw [htot]
      exact hct k (hkeysperm.mem_iff.mp hk)

theorem keyInv_updateHypData (id : RuleId) (f : HypothesisR → HypothesisR)
    (s : RulesState) (hinv : KeyInv s) : KeyInv (updateHypData id f s) := by
  obtain ⟨hnd, hct⟩ := hinv
  have hkeys : allKeys (updateHypData id f s) = allKeys s := by
    simp only [allKeys, updateHypData]
    rw [updateKV_map_fst]
  have htot : totalCount (updateHypData id f s) = totalCount s := by
    simp [totalCount, updateHypData]
  rw [KeyInv, hkeys, htot]
  exact ⟨hnd, hct⟩

theorem keyInv_updateRuleData (id : RuleId) (f : GameRule → GameRule)
    (s : RulesState) (hinv : KeyInv s) : KeyInv (updateRuleData id f s) := by
  obtain ⟨hnd, hct⟩ := hinv
  have hkeys : allKeys (updateRuleData id f s) = allKeys s := by
    simp only [allKeys, updateRuleData]
    rw [updateKV_map_fst]
  have htot : totalCount (updateRuleData id f s) = totalCount s := by
    simp [totalCount, updateRuleData]
  rw [KeyInv, hkeys, htot]
  exact ⟨hnd, hct⟩

theorem keyInv_applyEvent (s : RulesState) (hinv : KeyInv s) (e : SophiaEvent) :
    KeyInv (applyEvent s e) := by
  cases e with
  | createHyp stem h => exact keyInv_createHyp stem h s hinv
  | promote id => exact keyInv_promoteHyp id s hinv
  | updateHyp id f => exact keyInv_updateHypData id f s hinv
  | updateRule id f => exact keyInv_updateRuleData id f s hinv
  | tick =>
      obtain ⟨hnd, hct⟩ := hinv
      exact ⟨hnd, hct⟩

theorem keyInv_run (evs : List SophiaEvent) : KeyInv (runEvents evs) := by
  have hgen : ∀ s, KeyInv s → KeyInv (evs.foldl applyEvent s) := by
    induction evs with
    | nil => exact fun s h => h
    | cons e evs ih => exact fun s h => ih _ (keyInv_applyEvent s h e)
  exact hgen initState keyInv_init

end Sophia

/-- Claim C5: in every reachable engine state, promoting a hypothesis
removes it from the active-hypothesis map, puts a rule with the same id,
category, description, confidence and evidence count into the
confirmed-rule map where exactly one entry carries that id, and never
overwrites an existing distinct rule — the id was not a confirmed-rule key
before the promotion, because generated ids are unique across the engine's
lifetime. -/
theorem C5_promotion_moves_hypothesis_exactly_once
    (evs : List Sophia.SophiaEvent) (id : Sophia.RuleId) (h : Sophia.HypothesisR)
    (hlook : Sophia.lookupKV id (Sophia.runEvents evs).active_hypotheses = some h) :
    Sophia.lookupKV id
        (Sophia.promoteHyp id (Sophia.runEvents evs)).active_hypotheses = none ∧
    Sophia.lookupKV id (Sophia.promoteHyp id (Sophia.runEvents evs)).confirmed_rules
      = some (Sophia.ruleOfHyp h (Sophia.runEvents evs).turn_counter) ∧
    ((Sophia.promoteHyp id (Sophia.runEvents evs)).confirmed_rules.map
        Prod.fst).count id = 1 ∧
    Sophia.lookupKV id (Sophia.runEvents evs).confirmed_rules = none := by
  obtain ⟨hnd, hct⟩ := Sophia.keyInv_run evs
  set s := Sophia.runEvents evs with hs
  have hpro : Sophia.promoteHyp id s = { s with
      confirmed_rules :=
        Sophia.dictInsert s.confirmed_rules id (Sophia.ruleOfHyp h s.turn_counter)
      active_hypotheses :=
        s.active_hypotheses.filter (fun kv => ¬ kv.1 = id) } := by
    unfold Sophia.promoteHyp
    rw [hlook]
  obtain ⟨hpair, hmemK⟩ := Sophia.lookupKV_some_mem id h _ hlook
  have hdisj := (List.nodup_append.mp hnd).2.2
  have hidrules : id ∉ s.confirmed_rules.map Prod.fst := fun hc => hdisj hc hmemK
  have hnone : Sophia.lookupKV id s.confirmed_rules = none :=
    (Sophia.lookupKV_eq_none_iff id _).mpr hidrules
  have hins : Sophia.dictInsert s.confirmed_rules id (Sophia.ruleOfHyp h s.turn_counter)
      = s.confirmed_rules ++ [(id, Sophia.ruleOfHyp h s.turn_counter)] := by
    unfold Sophia.dictInsert
    rw [if_neg (by rw [hnone]; simp)]
  refine ⟨?_, ?_, ?_, hnone⟩
  · rw [hpro]
    exact Sophia.lookupKV_filter_ne id _
  · rw [hpro]
    simp only [hins]
    exact Sophia.lookupKV_append_fresh id _ _ hidrules
  · rw [hpro]
    simp only [hins, List.map_append]
    rw [List.count_append, List.count_eq_zero.mpr hidrules]
    simp

/-- Witness for C5: create one movement hypothesis from the empty engine and
promote it. -/
theorem C5_promotion_moves_hypothesis_exactly_once_witness :
    Sophia.lookupKV ⟨"MOVEMENT_UP", 0⟩
        (Sophia.promoteHyp ⟨"MOVEMENT_UP", 0⟩
          (Sophia.runEvents [Sophia.SophiaEvent.createHyp "MOVEMENT_UP"
            ⟨Sophia.RuleType.MOVEMENT, "UP action moves player when path is clear",
              4/10, 1, "Test up in different contexts"⟩])).active_hypotheses = none ∧
    Sophia.lookupKV ⟨"MOVEMENT_UP", 0⟩
        (Sophia.promoteHyp ⟨"MOVEMENT_UP", 0⟩
          (Sophia.runEvents [Sophia.SophiaEvent.createHyp "MOVEMENT_UP"
            ⟨Sophia.RuleType.MOVEMENT, "UP action moves player when path is clear",
              4/10, 1, "Test up in different contexts"⟩])).confirmed_rules
      = some (Sophia.ruleOfHyp
          ⟨Sophia.RuleType.MOVEMENT, "UP action moves player when path is clear",
            4/10, 1, "Test up in different contexts"⟩
          (Sophia.runEvents [Sophia.SophiaEvent.createHyp "MOVEMENT_UP"
            ⟨Sophia.RuleType.MOVEMENT, "UP action moves player when path is clear",
              4/10, 1, "Test up in different contexts"⟩]).turn_counter) ∧
    ((Sophia.promoteHyp ⟨"MOVEMENT_UP", 0⟩
          (Sophia.runEvents [Sophia.SophiaEvent.createHyp "MOVEMENT_UP"
            ⟨Sophia.RuleType.MOVEMENT, "UP action moves player when path is clear",
              4/10, 1, "Test up in different contexts"⟩])).confirmed_rules.map
        Prod.fst).count ⟨"MOVEMENT_UP", 0⟩ = 1 ∧
    Sophia.lookupKV ⟨"MOVEMENT_UP", 0⟩
        (Sophia.runEvents [Sophia.SophiaEvent.createHyp "MOVEMENT_UP"
            ⟨Sophia.RuleType.MOVEMENT, "UP action moves player when path is clear",
              4/10, 1, "Test up in different contexts"⟩]).confirmed_rules = none :=
  C5_promotion_moves_hypothesis_exactly_once
    [Sophia.SophiaEvent.createHyp "MOVEMENT_UP"
      ⟨Sophia.RuleType.MOVEMENT, "UP action moves player when path is clear",
        4/10, 1, "Test up in different contexts"⟩]
    ⟨"MOVEMENT_UP", 0⟩
    ⟨Sophia.RuleType.MOVEMENT, "UP action moves player when path is clear",
      4/10, 1, "Test up in different contexts"⟩
    (by simp [Sophia.runEvents, Sophia.applyEvent, Sophia.createHyp,
      Sophia.initState, Sophia.totalCount, Sophia.lookupKV])

/- ===================================================================
   Grid differencing (src/agents/tomas_engine/matrix_difference_utils.py)
   =================================================================== -/

namespace MatrixDiff

/-- Wrap-around of the `dtype=np.int32` conversion.  Grid colors are tiny
(0-16) so this is the identity on every value the pipeline produces; it is
kept explicit so the model matches numpy's machine arithmetic. -/
def toInt32 (x : ℤ) : ℤ := (x + 2^31) % 2^32 - 2^31

/-- Number of columns of a nested-list grid (the length of the first row). -/
def cols (m : List (List ℤ)) : ℕ := (m.headD []).length

/-- Rectangularity: every row has the first row's length.  `np.array`
produces a 2-D array from a `List[List[int]]` input exactly when the list is
non-empty and rectangular: a ragged list raises (caught by the surrounding
`except`, which returns the default grid) and `[]` yields the 1-D shape
`(0,)` (sent to the default grid by the dimension checks). -/
def rect (m : List (List ℤ)) : Prop := ∀ row ∈ m, row.length = cols m

instance (m : List (List ℤ)) : Decidable (rect m) := by
  unfold rect; infer_instance

/-- A nested list that `np.array` turns into a 2-D array. -/
def wf2 (m : List (List ℤ)) : Prop := m ≠ [] ∧ rect m

instance (m : List (List ℤ)) : Decidable (wf2 m) := by
  unfold wf2; infer_instance

/-- `np.zeros((64, 64), dtype=np.int32)`, the default grid. -/
def zeros64 : List (List ℤ) := List.replicate 64 (List.replicate 64 0)

/-- `m[:r, :c]`. -/
def cropTo (r c : ℕ) (m : List (List ℤ)) : List (List ℤ) :=
  (m.take r).map (fun row => row.take c)

/-- Elementwise `after - before` on int32 arrays. -/
def sub2 (a b : List (List ℤ)) : List (List ℤ) :=
  List.zipWith
    (fun ra rb => List.zipWith (fun x y => toInt32 (toInt32 x - toInt32 y)) ra rb)
    a b

/-- `calculate_matrix_difference` (matrix_difference_utils.py lines 166-220)
on `List[List[int]]` inputs: when both inputs make 2-D arrays, equal shapes
are subtracted directly and unequal shapes are first cropped to the minimum
common row and column counts; every other combination — a ragged input
(exception caught) or an input that is not 2-D — returns the all-zero 64×64
default.  (The `ndim == 3` squeeze branch is unreachable for
`List[List[int]]` inputs.)  The function is total: no path raises. -/
def calculate_matrix_difference (mb ma : List (List ℤ)) : List (List ℤ) :=
  if wf2 mb ∧ wf2 ma then
    if mb.length = ma.length ∧ cols mb = cols ma then
      sub2 ma mb
    else
      sub2 (cropTo (min mb.length ma.length) (min (cols mb) (cols ma)) ma)
           (cropTo (min mb.length ma.length) (min (cols mb) (cols ma)) mb)
  else zeros64

/-- What the spec promises for reconcilable inputs: the difference of the two
grids cropped to the minimum common row and column counts. -/
def croppedDifference (mb ma : List (List ℤ)) : List (List ℤ) :=
  sub2 (cropTo (min mb.length ma.length) (min (cols mb) (cols ma)) ma)
       (cropTo (min mb.length ma.length) (min (cols mb) (cols ma)) mb)

theorem cropTo_self (m : List (List ℤ)) (hr : rect m) :
    cropTo m.length (cols m) m = m := by
  unfold cropTo
  rw [List.take_length]
  conv_rhs => rw [← List.map_id m]
  apply List.map_congr_left
  intro row hrow
  rw [← hr row hrow]
  exact List.take_length row

end MatrixDiff

/-- Claim C9: for any two `List[List[int]]` inputs the matrix-difference
operation is total (never raises to the caller); when both inputs normalize
to 2-D arrays it returns the elementwise difference of the two grids cropped
to the minimum common row and column counts (which is the plain difference
when the shapes already agree), and otherwise it returns the all-background
(all-zero) 64×64 default grid. -/
theorem C9_matrix_difference_total_cropped_or_default
    (mb ma : List (List ℤ)) :
    (MatrixDiff.wf2 mb ∧ MatrixDiff.wf2 ma →
      MatrixDiff.calculate_matrix_difference mb ma
        = MatrixDiff.croppedDifference mb ma) ∧
    (¬ (MatrixDiff.wf2 mb ∧ MatrixDiff.wf2 ma) →
      MatrixDiff.calculate_matrix_difference mb ma = MatrixDiff.zeros64) ∧
    (MatrixDiff.zeros64.length = 64 ∧
      ∀ row ∈ MatrixDiff.zeros64, row.length = 64 ∧ ∀ x ∈ row, x = 0) := by
  refine ⟨?_, ?_, ?_⟩
  · intro hwf
    unfold MatrixDiff.calculate_matrix_difference
    rw [if_pos hwf]
    by_cases hsh : mb.length = ma.length ∧ MatrixDiff.cols mb = MatrixDiff.cols ma
    · rw [if_pos hsh]
      unfold MatrixDiff.croppedDifference
      have hmr : min mb.length ma.length = mb.length := by
        rw [hsh.1]; exact min_self _
      have hmc : min (MatrixDiff.cols mb) (MatrixDiff.cols ma) = MatrixDiff.cols mb := by
        rw [hsh.2]; exact min_self _
      have h2 : MatrixDiff.cropTo mb.length (MatrixDiff.cols mb) ma = ma := by
        rw [hsh.1, hsh.2]
        exact MatrixDiff.cropTo_self ma hwf.2.2
      rw [hmr, hmc, MatrixDiff.cropTo_self mb hwf.1.2, h2]
    · rw [if_neg hsh]
      rfl
  · intro hwf
    unfold MatrixDiff.calculate_matrix_difference
    rw [if_neg hwf]
  · refine ⟨by simp [MatrixDiff.zeros64], ?_⟩
    intro row hrow
    unfold MatrixDiff.zeros64 at hrow
    rw [List.eq_of_mem_replicate hrow]
    constructor
    · simp
    · intro x hx
      exact List.eq_of_mem_replicate hx

/-- Witness for C9: a 2×2 and a 1×2 grid are cropped to their common 1×2
shape and subtracted, and an empty (non-2-D) input degrades to the default
grid. -/
theorem C9_matrix_difference_total_cropped_or_default_witness :
    (MatrixDiff.calculate_matrix_difference [[1, 2], [3, 4]] [[2, 4]]
        = MatrixDiff.croppedDifference [[1, 2], [3, 4]] [[2, 4]]) ∧
    (MatrixDiff.calculate_matrix_difference [] [[2, 4]] = MatrixDiff.zeros64) := by
  constructor
  · exact (C9_matrix_difference_total_cropped_or_default [[1, 2], [3, 4]] [[2, 4]]).1
      (by decide)
  · exact (C9_matrix_difference_total_cropped_or_default [] [[2, 4]]).2.1
      (by decide)

/- ===================================================================
   Object detection and matching
   (src/agents/tomas_engine/matrix_difference_utils.py,
    src/agents/tomas_engine/nucleus/aisthesis.py)
   =================================================================== -/

namespace Detect

/-- A grid coordinate.  Integer (not natural) coordinates so that the
out-of-bounds neighbor pushes of the Python flood fill (e.g. `(row-1, col)`
at row 0) are represented exactly. -/
abbrev Pos := ℤ × ℤ

/-- 4-neighborhood adjacency. -/
def Adj (p q : Pos) : Prop :=
  (q.1 = p.1 - 1 ∧ q.2 = p.2) ∨ (q.1 = p.1 + 1 ∧ q.2 = p.2) ∨
  (q.1 = p.1 ∧ q.2 = p.2 - 1) ∨ (q.1 = p.1 ∧ q.2 = p.2 + 1)

theorem Adj_symm {p q : Pos} (h : Adj p q) : Adj q p := by
  obtain ⟨pr, pc⟩ := p
  obtain ⟨qr, qc⟩ := q
  simp only [Adj] at h ⊢
  rcases h with ⟨h1, h2⟩ | ⟨h1, h2⟩ | ⟨h1, h2⟩ | ⟨h1, h2⟩ <;> subst h1 <;> subst h2
  · right; left; exact ⟨by ring, rfl⟩
  · left; exact ⟨by ring, rfl⟩
  · right; right; right; exact ⟨rfl, by ring⟩
  · right; right; left; exact ⟨rfl, by ring⟩

/-- `matrix[row, col]` of the rectangular grid (0 outside, never consulted
there thanks to the bounds checks). -/
def cellVal (g : List (List ℤ)) (p : Pos) : ℤ :=
  (g.getD p.1.toNat []).getD p.2.toNat 0

/-- The bounds check of `_flood_fill_simple` (matrix_difference_utils.py
lines 118-122). -/
def inB (g : List (List ℤ)) (p : Pos) : Prop :=
  0 ≤ p.1 ∧ p.1 < g.length ∧ 0 ≤ p.2 ∧ p.2 < MatrixDiff.cols g

instance (g : List (List ℤ)) (p : Pos) : Decidable (inB g p) := by
  unfold inB; infer_instance

/-- The finite set of in-bounds cells, used as the termination measure. -/
def cellsOf (g : List (List ℤ)) : Finset Pos :=
  Finset.Icc (0 : ℤ) ((g.length : ℤ) - 1) ×ˢ
    Finset.Icc (0 : ℤ) ((MatrixDiff.cols g : ℤ) - 1)

theorem mem_cellsOf (g : List (List ℤ)) (p : Pos) :
    p ∈ cellsOf g ↔ inB g p := by
  unfold cellsOf inB
  rw [Finset.mem_product, Finset.mem_Icc, Finset.mem_Icc]
  omega

/-- The `while stack:` loop of `_flood_fill_simple` (matrix_difference_utils.py
lines 112-134).  The Python list is a stack whose top is its last element;
it is modelled head-on-top, so the four neighbor pushes appear in reversed
order.  Each popped cell inside bounds, unvisited and of the target color is
marked visited, appended to the positions list and has its 4 neighbors
pushed; every other popped cell is discarded. -/
def floodLoop (g : List (List ℤ)) (t : ℤ) (visited : Finset Pos)
    (stack : List Pos) (acc : List Pos) : List Pos × Finset Pos :=
  match stack with
  | [] => (acc, visited)
  | p :: rest =>
      if h : inB g p ∧ p ∉ visited ∧ cellVal g p = t then
        floodLoop g t (insert p visited)
          ((p.1, p.2 + 1) :: (p.1, p.2 - 1) :: (p.1 + 1, p.2) :: (p.1 - 1, p.2) :: rest)
          (acc ++ [p])
      else
        floodLoop g t visited rest acc
termination_by ((cellsOf g \ visited).card, stack.length)
decreasing_by
  · apply Prod.Lex.left
    apply Finset.card_lt_card
    constructor
    · intro x hx
      rw [Finset.mem_sdiff] at hx ⊢
      exact ⟨hx.1, fun hv => hx.2 (Finset.mem_insert_of_mem hv)⟩
    · intro hsub
      have hmem : p ∈ cellsOf g \ visited :=
        Finset.mem_sdiff.mpr ⟨(mem_cellsOf g p).mpr h.1, h.2.1⟩
      have := hsub hmem
      rw [Finset.mem_sdiff] at this
      exact this.2 (Finset.mem_insert_self p visited)
  · apply Prod.Lex.right
    simp

/-- `_flood_fill_simple` (matrix_difference_utils.py lines 94-134): the
duplicated guard before the loop, then the loop on the singleton stack.
Returns the collected positions together with the updated visited mask. -/
def flood_fill_simple (g : List (List ℤ)) (visited : Finset Pos)
    (start : Pos) (t : ℤ) : List Pos × Finset Pos :=
  if inB g start ∧ start ∉ visited ∧ cellVal g start = t then
    floodLoop g t visited [start] []
  else ([], visited)

/-- Shape classification of `_create_object_from_positions`
(aisthesis.py lines 452-469).  Each constructor stands for one of the
pairwise-distinct Python format strings (`"pixel"`,
`f"vertical-line-{h}"`, `f"horizontal-line-{w}"`, `f"square-{w}x{h}"`,
`f"rectangle-{w}x{h}"`, `f"complex-{n}pixels"`). -/
inductive Shape where
  | pixel
  | verticalLine (height : ℤ)
  | horizontalLine (width : ℤ)
  | square (width height : ℤ)
  | rectangle (width height : ℤ)
  | complex (size : ℕ)
deriving DecidableEq, Repr

/-- `min(list)` over a non-empty integer list (0 for the empty list, which
the callers never pass). -/
def minCoord : List ℤ → ℤ
  | [] => 0
  | x :: xs => xs.foldl min x

/-- `max(list)` over a non-empty integer list. -/
def maxCoord : List ℤ → ℤ
  | [] => 0
  | x :: xs => xs.foldl max x

/-- The width/height/size based shape rule of aisthesis
`_create_object_from_positions` (aisthesis.py lines 452-469). -/
def shapeOf (positions : List Pos) : Shape :=
  let rows := positions.map Prod.fst
  let cs := positions.map Prod.snd
  let width := maxCoord cs - minCoord cs + 1
  let height := maxCoord rows - minCoord rows + 1
  let size := positions.length
  if size = 1 then .pixel
  else if width = 1 then .verticalLine height
  else if height = 1 then .horizontalLine width
  else if (size : ℤ) = width * height then
    if width = height then .square width height else .rectangle width height
  else .complex size

/-- Detected object.  Models both `SimpleObject`
(matrix_difference_utils.py lines 28-37) and `ObjectInfo` (aisthesis):
`colorKey` is `color_value % 17`, the key under which `COLOR_NAMES` yields
the stored color name (the dictionary is injective on 0..16, and the
`f"color-{v}"` fallback is dead code since `v % 17` is always a key);
`shape` is the aisthesis shape class, which `SimpleObject` does not store
and whose matcher does not read. -/
structure SimpleObject where
  id : ℕ
  colorKey : ℤ
  shape : Shape
  positions : List Pos
  size : ℕ
  center : Pos
  bounds : ℤ × ℤ × ℤ × ℤ
deriving DecidableEq, Repr

/-- Object construction from a component (matrix_difference_utils.py lines
62-84; the `shape` field as computed by aisthesis lines 452-469).  The
center uses `//`; its operands are sums of in-bounds (hence non-negative)
coordinates, where Python floor division and Lean's `Int` division
agree. -/
def mkObject (counter : ℕ) (colorValue : ℤ) (positions : List Pos) :
    SimpleObject :=
  let rows := positions.map Prod.fst
  let cs := positions.map Prod.snd
  let minr := minCoord rows
  let maxr := maxCoord rows
  let minc := minCoord cs
  let maxc := maxCoord cs
  { id := counter
    colorKey := colorValue % 17
    shape := shapeOf positions
    positions := positions
    size := positions.length
    center := ((minr + maxr) / 2, (minc + maxc) / 2)
    bounds := (minr, maxr, minc, maxc) }

/-- Row-major scan order of `detect_simple_objects`
(matrix_difference_utils.py lines 54-55). -/
def scanCells (g : List (List ℤ)) : List Pos :=
  (List.range g.length).bind
    (fun r => (List.range (MatrixDiff.cols g)).map (fun c => ((r : ℤ), (c : ℤ))))

/-- One scan step of `detect_simple_objects` (matrix_difference_utils.py
lines 56-85): on an unvisited non-background cell, flood fill and (if any
position was collected, which the flood-fill guard guarantees here) append
the object and advance the id counter. -/
def detectStep (g : List (List ℤ))
    (st : Finset Pos × List SimpleObject × ℕ) (p : Pos) :
    Finset Pos × List SimpleObject × ℕ :=
  if p ∉ st.1 ∧ cellVal g p ≠ 0 then
    let res := flood_fill_simple g st.1 p (cellVal g p)
    if res.1 = [] then (res.2, st.2.1, st.2.2)
    else (res.2, st.2.1 ++ [mkObject st.2.2 (cellVal g p) res.1], st.2.2 + 1)
  else st

/-- `detect_simple_objects` (matrix_difference_utils.py lines 40-91) on
`List[List[int]]` inputs: non-2-D inputs (ragged, which raise into the
`except`, or empty) return `[]`; otherwise the row-major scan with a shared
visited mask and the object counter starting at 1. -/
def detect_simple_objects (g : List (List ℤ)) : List SimpleObject :=
  if MatrixDiff.wf2 g then
    ((scanCells g).foldl (detectStep g) (∅, [], 1)).2.1
  else []

/-- Chains of 4-adjacent steps whose cells all lie in `S`. -/
def Chain (S : Set Pos) (a b : Pos) : Prop :=
  Relation.ReflTransGen (fun x y => x ∈ S ∧ y ∈ S ∧ Adj x y) a b

theorem Chain_mono {S T : Set Pos} (hST : S ⊆ T) {a b : Pos} (h : Chain S a b) :
    Chain T a b :=
  Relation.ReflTransGen.mono (fun x y hxy => ⟨hST hxy.1, hST hxy.2.1, hxy.2.2⟩) h

theorem Chain_symm {S : Set Pos} {a b : Pos} (h : Chain S a b) : Chain S b a := by
  have hsym : Symmetric (fun x y : Pos => x ∈ S ∧ y ∈ S ∧ Adj x y) := by
    intro x y hxy
    exact ⟨hxy.2.1, hxy.1, Adj_symm hxy.2.2⟩
  exact Relation.ReflTransGen.symmetric hsym h

theorem floodLoop_master (g : List (List ℤ)) (t : ℤ) (start : Pos)
    (visited₀ : Finset Pos) :
    ∀ (visited : Finset Pos) (stack acc : List Pos),
      visited = visited₀ ∪ acc.toFinset →
      (∀ p ∈ acc, inB g p ∧ cellVal g p = t ∧ p ∉ visited₀) →
      (∀ p ∈ stack, p = start ∨ ∃ q ∈ acc, Adj q p) →
      (∀ p ∈ acc, Chain {x | x ∈ acc} start p) →
      (floodLoop g t visited stack acc).2
          = visited₀ ∪ (floodLoop g t visited stack acc).1.toFinset ∧
      (∀ p ∈ (floodLoop g t visited stack acc).1,
          inB g p ∧ cellVal g p = t ∧ p ∉ visited₀) ∧
      (∀ p ∈ (floodLoop g t visited stack acc).1,
          Chain {x | x ∈ (floodLoop g t visited stack acc).1} start p) ∧
      (∀ p ∈ acc, p ∈ (floodLoop g t visited stack acc).1) := by
  intro visited stack acc
  induction visited, stack, acc using floodLoop.induct g t with
  | case1 visited acc =>
      intro hvis hacc _hstack hchain
      rw [floodLoop]
      exact ⟨hvis, hacc, hchain, fun p hp => hp⟩
  | case2 visited acc p rest h ih =>
      intro hvis hacc hstack hchain
      rw [floodLoop, dif_pos h]
      have h1 : insert p visited = visited₀ ∪ (acc ++ [p]).toFinset := by
        rw [hvis]
        ext x
        simp only [Finset.mem_insert, Finset.mem_union, List.mem_toFinset,
          List.mem_append, List.mem_singleton]
        tauto
      have h2 : ∀ x ∈ acc ++ [p], inB g x ∧ cellVal g x = t ∧ x ∉ visited₀ := by
        intro x hx
        rcases List.mem_append.mp hx with hx | hx
        · exact hacc x hx
        · simp only [List.mem_singleton] at hx
          subst hx
          refine ⟨h.1, h.2.2, ?_⟩
          intro hx0
          exact h.2.1 (by rw [hvis]; exact Finset.mem_union_left _ hx0)
      have h3 : ∀ x ∈ (p.1, p.2 + 1) :: (p.1, p.2 - 1) ::
          (p.1 + 1, p.2) :: (p.1 - 1, p.2) :: rest,
          x = start ∨ ∃ q ∈ acc ++ [p], Adj q x := by
        intro x hx
        have hmemacc : p ∈ acc ++ [p] := by simp
        simp only [List.mem_cons] at hx
        rcases hx with hx | hx | hx | hx | hx
        · subst hx
          right
          exact ⟨p, hmemacc, Or.inr (Or.inr (Or.inr ⟨rfl, rfl⟩))⟩
        · subst hx
          right
          exact ⟨p, hmemacc, Or.inr (Or.inr (Or.inl ⟨rfl, rfl⟩))⟩
        · subst hx
          right
          exact ⟨p, hmemacc, Or.inr (Or.inl ⟨rfl, rfl⟩)⟩
        · subst hx
          right
          exact ⟨p, hmemacc, Or.inl ⟨rfl, rfl⟩⟩
        · rcases hstack x (List.mem_cons_of_mem p hx) with hs | ⟨q, hq, hadj⟩
          · exact Or.inl hs
          · exact Or.inr ⟨q, List.mem_append_left _ hq, hadj⟩
      have h4 : ∀ x ∈ acc ++ [p], Chain {y : Pos | y ∈ acc ++ [p]} start x := by
        intro x hx
        have hsub : {y : Pos | y ∈ acc} ⊆ {y : Pos | y ∈ acc ++ [p]} := by
          intro y hy
          simpa using Or.inl (by simpa using hy)
        rcases List.mem_append.mp hx with hx | hx
        · exact Chain_mono hsub (hchain x hx)
        · simp only [List.mem_singleton] at hx
          subst hx
          rcases hstack x (List.mem_cons_self x rest) with hs | ⟨q, hq, hadj⟩
          · subst hs
            exact Relation.ReflTransGen.refl
          · refine Relation.ReflTransGen.tail (Chain_mono hsub (hchain q hq)) ?_
            refine ⟨by simpa using Or.inl hq, by simp, hadj⟩
      obtain ⟨c1, c2, c3, c4⟩ := ih h1 h2 h3 h4
      exact ⟨c1, c2, c3, fun x hx => c4 x (List.mem_append_left _ hx)⟩
  | case3 visited acc p rest h ih =>
      intro hvis hacc hstack hchain
      rw [floodLoop, dif_neg h]
      apply ih hvis hacc ?_ hchain
      intro x hx
      exact hstack x (List.mem_cons_of_mem p hx)

theorem flood_fill_simple_spec (g : List (List ℤ)) (visited₀ : Finset Pos)
    (start : Pos) (t : ℤ)
    (hg : inB g start ∧ start ∉ visited₀ ∧ cellVal g start = t) :
    start ∈ (flood_fill_simple g visited₀ start t).1 ∧
    (flood_fill_simple g visited₀ start t).2
      = visited₀ ∪ (flood_fill_simple g visited₀ start t).1.toFinset ∧
    (∀ p ∈ (flood_fill_simple g visited₀ start t).1,
        inB g p ∧ cellVal g p = t ∧ p ∉ visited₀) ∧
    (∀ p ∈ (flood_fill_simple g visited₀ start t).1,
      ∀ q ∈ (flood_fill_simple g visited₀ start t).1,
        Chain {x | x ∈ (flood_fill_simple g visited₀ start t).1} p q) := by
  have hffs : flood_fill_simple g visited₀ start t
      = floodLoop g t (insert start visited₀)
          ((start.1, start.2 + 1) :: (start.1, start.2 - 1) ::
            (start.1 + 1, start.2) :: (start.1 - 1, start.2) :: [])
          [start] := by
    unfold flood_fill_simple
    rw [if_pos hg, floodLoop, dif_pos hg]
    simp
  have hmaster := floodLoop_master g t start visited₀
    (insert start visited₀)
    ((start.1, start.2 + 1) :: (start.1, start.2 - 1) ::
      (start.1 + 1, start.2) :: (start.1 - 1, start.2) :: [])
    [start]
    (by
      ext x
      simp only [Finset.mem_insert, Finset.mem_union, List.mem_toFinset,
        List.mem_singleton]
      tauto)
    (by
      intro x hx
      simp only [List.mem_singleton] at hx
      subst hx
      exact ⟨hg.1, hg.2.2, hg.2.1⟩)
    (by
      intro x hx
      have hmem : start ∈ [start] := List.mem_singleton_self start
      simp only [List.mem_cons, List.not_mem_nil, or_false] at hx
      rcases hx with hx | hx | hx | hx <;> subst hx <;> right
      · exact ⟨start, hmem, Or.inr (Or.inr (Or.inr ⟨rfl, rfl⟩))⟩
      · exact ⟨start, hmem, Or.inr (Or.inr (Or.inl ⟨rfl, rfl⟩))⟩
      · exact ⟨start, hmem, Or.inr (Or.inl ⟨rfl, rfl⟩)⟩
      · exact ⟨start, hmem, Or.inl ⟨rfl, rfl⟩⟩)
    (by
      intro x hx
      simp only [List.mem_singleton] at hx
      subst hx
      exact Relation.ReflTransGen.refl)
  rw [← hffs] at hmaster
  obtain ⟨c1, c2, c3, c4⟩ := hmaster
  have hstartmem : start ∈ (flood_fill_simple g visited₀ start t).1 :=
    c4 start (List.mem_singleton_self start)
  refine ⟨hstartmem, c1, c2, ?_⟩
  intro p hp q hq
  exact Relation.ReflTransGen.trans (Chain_symm (c3 p hp)) (c3 q hq)

/-- Per-object invariant: non-empty positions, a single non-background
color shared by every position, and 4-connectivity within the position
set. -/
def ObjInv (g : List (List ℤ)) (o : SimpleObject) : Prop :=
  o.positions ≠ [] ∧
  (∃ v, v ≠ 0 ∧ o.colorKey = v % 17 ∧
    ∀ p ∈ o.positions, inB g p ∧ cellVal g p = v) ∧
  (∀ p ∈ o.positions, ∀ q ∈ o.positions,
    Chain {x | x ∈ o.positions} p q)

theorem detect_fold_inv (g : List (List ℤ)) :
    ∀ (cells : List Pos) (visited : Finset Pos)
      (objs : List SimpleObject) (counter : ℕ),
      (∀ o ∈ objs, ObjInv g o) →
      (∀ o ∈ objs, ∀ p ∈ o.positions, p ∈ visited) →
      objs.Pairwise (fun o1 o2 => ∀ p ∈ o1.positions, p ∉ o2.positions) →
      (∀ o ∈ (cells.foldl (detectStep g) (visited, objs, counter)).2.1, ObjInv g o) ∧
      (∀ o ∈ (cells.foldl (detectStep g) (visited, objs, counter)).2.1,
        ∀ p ∈ o.positions,
          p ∈ (cells.foldl (detectStep g) (visited, objs, counter)).1) ∧
      (cells.foldl (detectStep g) (visited, objs, counter)).2.1.Pairwise
        (fun o1 o2 => ∀ p ∈ o1.positions, p ∉ o2.positions) := by
  intro cells
  induction cells with
  | nil =>
      intro visited objs counter hinv hvis hdisj
      exact ⟨hinv, fun o ho => hvis o ho, hdisj⟩
  | cons c cells ih =>
      intro visited objs counter hinv hvis hdisj
      rw [List.foldl_cons]
      by_cases hcond : c ∉ visited ∧ cellVal g c ≠ 0
      · by_cases hb : inB g c
        · -- the flood-fill guard passes: a new object is appended
          have hg : inB g c ∧ c ∉ visited ∧ cellVal g c = cellVal g c :=
            ⟨hb, hcond.1, rfl⟩
          obtain ⟨hstart, hvis2, hprops, hconn⟩ :=
            flood_fill_simple_spec g visited c (cellVal g c) hg
          have hne : (flood_fill_simple g visited c (cellVal g c)).1 ≠ [] := by
            intro hcon
            rw [hcon] at hstart
            exact List.not_mem_nil c hstart
          have hstep : detectStep g (visited, objs, counter) c
              = ((flood_fill_simple g visited c (cellVal g c)).2,
                 objs ++ [mkObject counter (cellVal g c)
                   (flood_fill_simple g visited c (cellVal g c)).1],
                 counter + 1) := by
            unfold detectStep
            rw [if_pos hcond, if_neg hne]
          rw [hstep]
          set newObj := mkObject counter (cellVal g c)
            (flood_fill_simple g visited c (cellVal g c)).1 with hnewObj
          have hnewpos : newObj.positions
              = (flood_fill_simple g visited c (cellVal g c)).1 := rfl
          have hnewkey : newObj.colorKey = (cellVal g c) % 17 := rfl
          apply ih
          · intro o ho
            rcases List.mem_append.mp ho with ho | ho
            · exact hinv o ho
            · simp only [List.mem_singleton] at ho
              subst ho
              refine ⟨by rw [hnewpos]; exact hne, ⟨cellVal g c, hcond.2, hnewkey, ?_⟩, ?_⟩
              · intro p hp
                rw [hnewpos] at hp
                exact ⟨(hprops p hp).1, (hprops p hp).2.1⟩
              · intro p hp q hq
                rw [hnewpos] at hp hq ⊢
                exact hconn p hp q hq
          · intro o ho p hp
            rw [hvis2]
            rcases List.mem_append.mp ho with ho | ho
            · exact Finset.mem_union_left _ (hvis o ho p hp)
            · simp only [List.mem_singleton] at ho
              subst ho
              rw [hnewpos] at hp
              exact Finset.mem_union_right _ (List.mem_toFinset.mpr hp)
          · rw [List.pairwise_append]
            refine ⟨hdisj, List.pairwise_singleton _ _, ?_⟩
            intro o1 ho1 o2 ho2
            simp only [List.mem_singleton] at ho2
            subst ho2
            intro p hp hpnew
            rw [hnewpos] at hpnew
            exact (hprops p hpnew).2.2 (hvis o1 ho1 p hp)
        · -- out of bounds: the flood-fill guard fails, nothing changes
          have hstep : detectStep g (visited, objs, counter) c
              = (visited, objs, counter) := by
            unfold detectStep
            rw [if_pos hcond]
            have hfl : flood_fill_simple g visited c (cellVal g c)
                = ([], visited) := by
              unfold flood_fill_simple
              rw [if_neg (fun hcon => hb hcon.1)]
            rw [hfl]
            simp
          rw [hstep]
          exact ih visited objs counter hinv hvis hdisj
      · have hstep : detectStep g (visited, objs, counter) c
            = (visited, objs, counter) := by
          unfold detectStep
          rw [if_neg hcond]
        rw [hstep]
        exact ih visited objs counter hinv hvis hdisj

theorem detect_simple_objects_inv (g : List (List ℤ)) :
    (∀ o ∈ detect_simple_objects g, ObjInv g o) ∧
    (detect_simple_objects g).Pairwise
      (fun o1 o2 => ∀ p ∈ o1.positions, p ∉ o2.positions) := by
  unfold detect_simple_objects
  by_cases hwf : MatrixDiff.wf2 g
  · rw [if_pos hwf]
    have h := detect_fold_inv g (scanCells g) ∅ [] 1
      (fun o ho => absurd ho (List.not_mem_nil o))
      (fun o ho => absurd ho (List.not_mem_nil o))
      List.Pairwise.nil
    exact ⟨h.1, h.2.2⟩
  · rw [if_neg hwf]
    exact ⟨fun o ho => absurd ho (List.not_mem_nil o), List.Pairwise.nil⟩

/- ------------------------------------------------------------------
   Object matching: `compare_objects` (matrix_difference_utils.py lines
   137-163) and `NucleiAisthesis._compare_objects` (aisthesis.py lines
   501-531), which differ only in their signature function.
   ------------------------------------------------------------------ -/

/-- Association lookup with Python-dict semantics (first matching key, which
is the only one since a dict never holds duplicate keys). -/
def lookupS {σ : Type} [DecidableEq σ] (k : σ) :
    List (σ × SimpleObject) → Option SimpleObject
  | [] => none
  | kv :: rest => if kv.1 = k then some kv.2 else lookupS k rest

/-- Python dict assignment `d[k] = v`. -/
def insertS {σ : Type} [DecidableEq σ] (m : List (σ × SimpleObject)) (k : σ)
    (v : SimpleObject) : List (σ × SimpleObject) :=
  if (lookupS k m).isSome then
    m.map (fun kv => if kv.1 = k then (k, v) else kv)
  else m ++ [(k, v)]

/-- The dict comprehension `{object_signature(obj): obj for obj in objs}`. -/
def buildMap {σ : Type} [DecidableEq σ] (sig : SimpleObject → σ)
    (objs : List SimpleObject) : List (σ × SimpleObject) :=
  objs.foldl (fun m o => insertS m (sig o) o) []

/-- The shared matcher body: iterate the before-dict appending the matching
after-object to `unchanged` or the before-object to `changed`, then append
the unmatched after-objects to `changed`.  Returns
`(changed, unchanged)`. -/
def compareWith {σ : Type} [DecidableEq σ] (sig : SimpleObject → σ)
    (objects_before objects_after : List SimpleObject) :
    List SimpleObject × List SimpleObject :=
  let bm := buildMap sig objects_before
  let am := buildMap sig objects_after
  let unchanged := bm.filterMap (fun kv => lookupS kv.1 am)
  let changedB := bm.filterMap
    (fun kv => if (lookupS kv.1 am).isSome then none else some kv.2)
  let changedA := am.filterMap
    (fun kv => if (lookupS kv.1 bm).isSome then none else some kv.2)
  (changedB ++ changedA, unchanged)

/-- `sorted(obj.positions)`: stable lexicographic sort of position tuples. -/
def sortPos (l : List Pos) : List Pos :=
  l.mergeSort (fun p q => decide (p.1 < q.1 ∨ (p.1 = q.1 ∧ p.2 ≤ q.2)))

/-- The signature of `compare_objects.object_signature`
(matrix_difference_utils.py lines 144-146): the string
`f"{obj.color}_{sorted_positions}"`.  Color names contain no underscore
and the position-tuple rendering is injective, so the string is equal to
another exactly when the (color name, sorted positions) pair is; the color
name is itself determined by `colorKey`. -/
def sigColorPos (o : SimpleObject) : ℤ × List Pos :=
  (o.colorKey, sortPos o.positions)

/-- The signature of `NucleiAisthesis._compare_objects.object_signature`
(aisthesis.py lines 509-512): `f"{obj.color}_{obj.shape}_{sorted_positions}"`,
which additionally mentions the shape class. -/
def sigColorShapePos (o : SimpleObject) : ℤ × Shape × List Pos :=
  (o.colorKey, o.shape, sortPos o.positions)

/-- `compare_objects` (matrix_difference_utils.py lines 137-163). -/
def compare_objects (objects_before objects_after : List SimpleObject) :
    List SimpleObject × List SimpleObject :=
  compareWith sigColorPos objects_before objects_after

/-- `NucleiAisthesis._compare_objects` (aisthesis.py lines 501-531). -/
def aisthesis_compare_objects (objects_before objects_after : List SimpleObject) :
    List SimpleObject × List SimpleObject :=
  compareWith sigColorShapePos objects_before objects_after

theorem lookupS_append {σ : Type} [DecidableEq σ] (k : σ)
    (l1 l2 : List (σ × SimpleObject)) :
    lookupS k (l1 ++ l2)
      = match lookupS k l1 with
        | some v => some v
        | none => lookupS k l2 := by
  induction l1 with
  | nil => simp [lookupS]
  | cons kv rest ih =>
      by_cases hk : kv.1 = k
      · simp [lookupS, hk]
      · simp [lookupS, hk, ih]

theorem buildMap_eq_map {σ : Type} [DecidableEq σ] (sig : SimpleObject → σ) :
    ∀ (objs : List SimpleObject) (m : List (σ × SimpleObject)),
      (∀ o ∈ objs, lookupS (sig o) m = none) →
      objs.Pairwise (fun a b => sig a ≠ sig b) →
      objs.foldl (fun m o => insertS m (sig o) o) m
        = m ++ objs.map (fun o => (sig o, o)) := by
  intro objs
  induction objs with
  | nil => intro m _ _; simp
  | cons o rest ih =>
      intro m hnone hdist
      rw [List.foldl_cons]
      have hins : insertS m (sig o) o = m ++ [(sig o, o)] := by
        unfold insertS
        rw [if_neg (by rw [hnone o (List.mem_cons_self o rest)]; simp)]
      rw [hins]
      have hnone2 : ∀ x ∈ rest, lookupS (sig x) (m ++ [(sig o, o)]) = none := by
        intro x hx
        rw [lookupS_append, hnone x (List.mem_cons_of_mem o hx)]
        have hneq : sig o ≠ sig x := (List.pairwise_cons.mp hdist).1 x hx
        simp [lookupS, hneq]
      rw [ih (m ++ [(sig o, o)]) hnone2 (List.pairwise_cons.mp hdist).2]
      simp

theorem buildMap_of_distinct {σ : Type} [DecidableEq σ] (sig : SimpleObject → σ)
    (objs : List SimpleObject)
    (hdist : objs.Pairwise (fun a b => sig a ≠ sig b)) :
    buildMap sig objs = objs.map (fun o => (sig o, o)) := by
  unfold buildMap
  rw [buildMap_eq_map sig objs [] (fun o _ => rfl) hdist]
  simp

theorem lookupS_map_eq_none_iff {σ : Type} [DecidableEq σ]
    (sig : SimpleObject → σ) (k : σ) (l : List SimpleObject) :
    lookupS k (l.map (fun o => (sig o, o))) = none ↔ ∀ o ∈ l, sig o ≠ k := by
  induction l with
  | nil => simp [lookupS]
  | cons o rest ih =>
      by_cases hk : sig o = k
      · simp [lookupS, hk]
      · simp only [List.map_cons, lookupS, hk, if_false, ite_false, ih,
          List.mem_cons]
        constructor
        · intro hall x hx
          rcases hx with hx | hx
          · subst hx; exact hk
          · exact hall x hx
        · intro hall x hx
          exact hall x (Or.inr hx)

theorem lookupS_map_self {σ : Type} [DecidableEq σ] (sig : SimpleObject → σ) :
    ∀ (l : List SimpleObject), l.Pairwise (fun a b => sig a ≠ sig b) →
      ∀ o ∈ l, lookupS (sig o) (l.map (fun o => (sig o, o))) = some o := by
  intro l
  induction l with
  | nil => intro _ o ho; exact absurd ho (List.not_mem_nil o)
  | cons a rest ih =>
      intro hdist o ho
      rcases List.mem_cons.mp ho with ho | ho
      · subst ho
        simp [lookupS]
      · have hne : sig a ≠ sig o := (List.pairwise_cons.mp hdist).1 o ho
        simp only [List.map_cons, lookupS, hne, if_false, ite_false]
        exact ih (List.pairwise_cons.mp hdist).2 o ho

theorem lookupS_map_some {σ : Type} [DecidableEq σ] (sig : SimpleObject → σ)
    (k : σ) (v : SimpleObject) :
    ∀ (l : List SimpleObject),
      lookupS k (l.map (fun o => (sig o, o))) = some v →
      v ∈ l ∧ sig v = k := by
  intro l
  induction l with
  | nil => intro h; simp [lookupS] at h
  | cons a rest ih =>
      intro h
      by_cases hk : sig a = k
      · simp only [List.map_cons, lookupS, hk, if_pos, ite_true,
          Option.some.injEq] at h
        subst h
        exact ⟨List.mem_cons_self a rest, hk⟩
      · simp only [List.map_cons, lookupS, hk, if_false, ite_false] at h
        obtain ⟨h1, h2⟩ := ih h
        exact ⟨List.mem_cons_of_mem a h1, h2⟩

end Detect

namespace Detect

theorem foldl_min_mem : ∀ (xs : List ℤ) (a : ℤ), xs.foldl min a ∈ a :: xs := by
  intro xs
  induction xs with
  | nil => intro a; simp
  | cons y ys ih =>
      intro a
      rw [List.foldl_cons]
      rcases List.mem_cons.mp (ih (min a y)) with h | h
      · rw [h]
        rcases min_choice a y with h2 | h2 <;> rw [h2]
        · exact List.mem_cons_self _ _
        · exact List.mem_cons_of_mem _ (List.mem_cons_self _ _)
      · exact List.mem_cons_of_mem _ (List.mem_cons_of_mem _ h)

theorem foldl_min_le : ∀ (xs : List ℤ) (a z : ℤ), z ∈ a :: xs → xs.foldl min a ≤ z := by
  intro xs
  induction xs with
  | nil =>
      intro a z hz
      simp only [List.mem_singleton] at hz
      subst hz
      exact le_refl _
  | cons y ys ih =>
      intro a z hz
      rw [List.foldl_cons]
      have hbase : ys.foldl min (min a y) ≤ min a y :=
        ih (min a y) (min a y) (List.mem_cons_self _ _)
      rcases List.mem_cons.mp hz with hz | hz
      · subst hz
        exact le_trans hbase (min_le_left _ _)
      · rcases List.mem_cons.mp hz with hz | hz
        · subst hz
          exact le_trans hbase (min_le_right _ _)
        · exact ih (min a y) z (List.mem_cons_of_mem _ hz)

theorem foldl_max_mem : ∀ (xs : List ℤ) (a : ℤ), xs.foldl max a ∈ a :: xs := by
  intro xs
  induction xs with
  | nil => intro a; simp
  | cons y ys ih =>
      intro a
      rw [List.foldl_cons]
      rcases List.mem_cons.mp (ih (max a y)) with h | h
      · rw [h]
        rcases max_choice a y with h2 | h2 <;> rw [h2]
        · exact List.mem_cons_self _ _
        · exact List.mem_cons_of_mem _ (List.mem_cons_self _ _)
      · exact List.mem_cons_of_mem _ (List.mem_cons_of_mem _ h)

theorem le_foldl_max : ∀ (xs : List ℤ) (a z : ℤ), z ∈ a :: xs → z ≤ xs.foldl max a := by
  intro xs
  induction xs with
  | nil =>
      intro a z hz
      simp only [List.mem_singleton] at hz
      subst hz
      exact le_refl _
  | cons y ys ih =>
      intro a z hz
      rw [List.foldl_cons]
      have hbase : max a y ≤ ys.foldl max (max a y) :=
        ih (max a y) (max a y) (List.mem_cons_self _ _)
      rcases List.mem_cons.mp hz with hz | hz
      · subst hz
        exact le_trans (le_max_left _ _) hbase
      · rcases List.mem_cons.mp hz with hz | hz
        · subst hz
          exact le_trans (le_max_right _ _) hbase
        · exact ih (max a y) z (List.mem_cons_of_mem _ hz)

theorem minCoord_perm {l1 l2 : List ℤ} (h : l1.Perm l2) :
    minCoord l1 = minCoord l2 := by
  rcases l1 with _ | ⟨x, xs⟩
  · rw [← h.nil_eq]
  · rcases l2 with _ | ⟨y, ys⟩
    · exact absurd h.length_eq (by simp)
    · have hm1 : minCoord (x :: xs) ∈ x :: xs := foldl_min_mem xs x
      have hm2 : minCoord (y :: ys) ∈ y :: ys := foldl_min_mem ys y
      refine le_antisymm ?_ ?_
      · exact foldl_min_le xs x _ (h.symm.mem_iff.mp hm2)
      · exact foldl_min_le ys y _ (h.mem_iff.mp hm1)

theorem maxCoord_perm {l1 l2 : List ℤ} (h : l1.Perm l2) :
    maxCoord l1 = maxCoord l2 := by
  rcases l1 with _ | ⟨x, xs⟩
  · rw [← h.nil_eq]
  · rcases l2 with _ | ⟨y, ys⟩
    · exact absurd h.length_eq (by simp)
    · have hm1 : maxCoord (x :: xs) ∈ x :: xs := foldl_max_mem xs x
      have hm2 : maxCoord (y :: ys) ∈ y :: ys := foldl_max_mem ys y
      refine le_antisymm ?_ ?_
      · exact le_foldl_max ys y _ (h.mem_iff.mp hm1)
      · exact le_foldl_max xs x _ (h.symm.mem_iff.mp hm2)

/-- The shape class is a function of the position set: permuting the
position list does not change it. -/
theorem shapeOf_perm {l1 l2 : List Pos} (h : l1.Perm l2) :
    shapeOf l1 = shapeOf l2 := by
  have h1 : minCoord (l1.map Prod.fst) = minCoord (l2.map Prod.fst) :=
    minCoord_perm (h.map _)
  have h2 : maxCoord (l1.map Prod.fst) = maxCoord (l2.map Prod.fst) :=
    maxCoord_perm (h.map _)
  have h3 : minCoord (l1.map Prod.snd) = minCoord (l2.map Prod.snd) :=
    minCoord_perm (h.map _)
  have h4 : maxCoord (l1.map Prod.snd) = maxCoord (l2.map Prod.snd) :=
    maxCoord_perm (h.map _)
  have h5 : l1.length = l2.length := h.length_eq
  unfold shapeOf
  dsimp only
  rw [h1, h2, h3, h4, h5]

/-- With the shape field computed from the positions (as the detector does),
the aisthesis signature and the plain signature identify the same pairs of
objects. -/
theorem sig_iff (o1 o2 : SimpleObject)
    (h1 : o1.shape = shapeOf o1.positions) (h2 : o2.shape = shapeOf o2.positions) :
    (sigColorShapePos o1 = sigColorShapePos o2 ↔ sigColorPos o1 = sigColorPos o2) := by
  unfold sigColorShapePos sigColorPos
  simp only [Prod.mk.injEq]
  constructor
  · intro h
    exact ⟨h.1, h.2.2⟩
  · intro h
    refine ⟨h.1, ?_, h.2⟩
    rw [h1, h2]
    apply shapeOf_perm
    have ha : (sortPos o1.positions).Perm o1.positions := List.mergeSort_perm _ _
    have hb : (sortPos o2.positions).Perm o2.positions := List.mergeSort_perm _ _
    rw [h.2] at ha
    exact ha.symm.trans hb

theorem lookupS_map_congr {σ τ : Type} [DecidableEq σ] [DecidableEq τ]
    (sig1 : SimpleObject → σ) (sig2 : SimpleObject → τ) (o : SimpleObject) :
    ∀ (l : List SimpleObject),
      (∀ a ∈ l, (sig1 a = sig1 o ↔ sig2 a = sig2 o)) →
      lookupS (sig1 o) (l.map (fun a => (sig1 a, a)))
        = lookupS (sig2 o) (l.map (fun a => (sig2 a, a))) := by
  intro l
  induction l with
  | nil => intro _; rfl
  | cons a rest ih =>
      intro hiff
      by_cases hk : sig1 a = sig1 o
      · have hk2 : sig2 a = sig2 o := (hiff a (List.mem_cons_self a rest)).mp hk
        simp [lookupS, hk, hk2]
      · have hk2 : ¬ sig2 a = sig2 o := fun hc =>
          hk ((hiff a (List.mem_cons_self a rest)).mpr hc)
        simp only [List.map_cons, lookupS, hk, hk2, if_false, ite_false]
        exact ih (fun x hx => hiff x (List.mem_cons_of_mem a hx))

theorem detect_sig_distinct (g : List (List ℤ)) :
    (detect_simple_objects g).Pairwise
      (fun a b => sigColorPos a ≠ sigColorPos b) := by
  obtain ⟨hinv, hdisj⟩ := detect_simple_objects_inv g
  refine hdisj.imp_of_mem ?_
  intro o1 o2 ho1 _ho2 hdis hsig
  obtain ⟨hne, _, _⟩ := hinv o1 ho1
  obtain ⟨p, hp⟩ := List.exists_mem_of_ne_nil _ hne
  have hsort : sortPos o1.positions = sortPos o2.positions :=
    congrArg Prod.snd hsig
  have hp2 : p ∈ o2.positions := by
    have h1 : p ∈ sortPos o1.positions :=
      (List.mergeSort_perm o1.positions _).mem_iff.mpr hp
    rw [hsort] at h1
    exact (List.mergeSort_perm o2.positions _).mem_iff.mp h1
  exact hdis p hp hp2

end Detect

/-- Claim C6: the object matcher is idempotent on detector outputs — matching
the detected object list of a grid against itself yields an empty
changed-objects list and an unchanged-objects list equal to the whole list;
this rests on the fact (also proved) that two distinct detected objects never
share a signature. -/
theorem C6_matcher_idempotent_on_detector_output (g : List (List ℤ)) :
    Detect.compare_objects (Detect.detect_simple_objects g)
        (Detect.detect_simple_objects g)
      = ([], Detect.detect_simple_objects g) ∧
    (Detect.detect_simple_objects g).Pairwise
      (fun a b => Detect.sigColorPos a ≠ Detect.sigColorPos b) := by
  have hdist := Detect.detect_sig_distinct g
  refine ⟨?_, hdist⟩
  unfold Detect.compare_objects Detect.compareWith
  rw [Detect.buildMap_of_distinct Detect.sigColorPos _ hdist]
  set l := Detect.detect_simple_objects g with hl
  have hun : (l.map (fun o => (Detect.sigColorPos o, o))).filterMap
      (fun kv => Detect.lookupS kv.1 (l.map (fun o => (Detect.sigColorPos o, o))))
      = l := by
    rw [List.filterMap_map]
    have hcongr : ∀ o ∈ l,
        ((fun kv : (ℤ × List Detect.Pos) × Detect.SimpleObject =>
            Detect.lookupS kv.1 (l.map (fun o => (Detect.sigColorPos o, o))))
          ∘ (fun o => (Detect.sigColorPos o, o))) o = some o := by
      intro o ho
      exact Detect.lookupS_map_self Detect.sigColorPos l hdist o ho
    rw [List.filterMap_congr hcongr]
    simp
  have hchB : (l.map (fun o => (Detect.sigColorPos o, o))).filterMap
      (fun kv => if (Detect.lookupS kv.1
          (l.map (fun o => (Detect.sigColorPos o, o)))).isSome
        then none else some kv.2) = [] := by
    rw [List.filterMap_map]
    have hcongr : ∀ o ∈ l,
        ((fun kv : (ℤ × List Detect.Pos) × Detect.SimpleObject =>
            if (Detect.lookupS kv.1
                (l.map (fun o => (Detect.sigColorPos o, o)))).isSome
            then none else some kv.2)
          ∘ (fun o => (Detect.sigColorPos o, o))) o
          = (none : Option Detect.SimpleObject) := by
      intro o ho
      have := Detect.lookupS_map_self Detect.sigColorPos l hdist o ho
      simp only [Function.comp_apply, this, Option.isSome_some, if_pos, ite_true]
    rw [List.filterMap_congr hcongr]
    simp
  dsimp only
  rw [hun, hchB]
  simp

/-- Claim C8: objects are matched across two frames by the exact signature:
on detector-style object lists (shape computed from the positions, no two
objects of a frame sharing a signature) an object is unchanged if and only
if an object with an equal signature exists on the other side, and changed
otherwise; and the two matcher implementations — the aisthesis one whose
signature includes the shape class and the matrix-difference one whose
signature omits it — return identical changed/unchanged lists, because the
shape class is a function of the position set. -/
theorem C8_matchers_agree_and_signature_matching
    (before after : List Detect.SimpleObject)
    (hshape : ∀ o ∈ before ++ after, o.shape = Detect.shapeOf o.positions)
    (hndB : before.Pairwise
      (fun a b => Detect.sigColorPos a ≠ Detect.sigColorPos b))
    (hndA : after.Pairwise
      (fun a b => Detect.sigColorPos a ≠ Detect.sigColorPos b)) :
    Detect.aisthesis_compare_objects before after
        = Detect.compare_objects before after ∧
    (∀ o, o ∈ (Detect.compare_objects before after).2 ↔
      (o ∈ after ∧ ∃ ob ∈ before, Detect.sigColorPos ob = Detect.sigColorPos o)) ∧
    (∀ o, o ∈ (Detect.compare_objects before after).1 ↔
      ((o ∈ before ∧ ∀ oa ∈ after, Detect.sigColorPos oa ≠ Detect.sigColorPos o) ∨
       (o ∈ after ∧ ∀ ob ∈ before, Detect.sigColorPos ob ≠ Detect.sigColorPos o))) := by
  have hshapeB : ∀ o ∈ before, o.shape = Detect.shapeOf o.positions :=
    fun o ho => hshape o (List.mem_append_left _ ho)
  have hshapeA : ∀ o ∈ after, o.shape = Detect.shapeOf o.positions :=
    fun o ho => hshape o (List.mem_append_right _ ho)
  have hndB2 : before.Pairwise
      (fun a b => Detect.sigColorShapePos a ≠ Detect.sigColorShapePos b) := by
    refine hndB.imp_of_mem ?_
    intro a b ha hb hne hc
    exact hne ((Detect.sig_iff a b (hshapeB a ha) (hshapeB b hb)).mp hc)
  have hndA2 : after.Pairwise
      (fun a b => Detect.sigColorShapePos a ≠ Detect.sigColorShapePos b) := by
    refine hndA.imp_of_mem ?_
    intro a b ha hb hne hc
    exact hne ((Detect.sig_iff a b (hshapeA a ha) (hshapeA b hb)).mp hc)
  have hbmA := Detect.buildMap_of_distinct Detect.sigColorPos before hndB
  have hamA := Detect.buildMap_of_distinct Detect.sigColorPos after hndA
  have hbmB := Detect.buildMap_of_distinct Detect.sigColorShapePos before hndB2
  have hamB := Detect.buildMap_of_distinct Detect.sigColorShapePos after hndA2
  -- pointwise correspondence of the lookups in the after-map
  have hlookA : ∀ o ∈ before,
      Detect.lookupS (Detect.sigColorShapePos o)
        (after.map (fun a => (Detect.sigColorShapePos a, a)))
      = Detect.lookupS (Detect.sigColorPos o)
        (after.map (fun a => (Detect.sigColorPos a, a))) := by
    intro o ho
    exact Detect.lookupS_map_congr Detect.sigColorShapePos Detect.sigColorPos o after
      (fun a ha => Detect.sig_iff a o (hshapeA a ha) (hshapeB o ho))
  -- pointwise correspondence of the lookups in the before-map
  have hlookB : ∀ o ∈ after,
      Detect.lookupS (Detect.sigColorShapePos o)
        (before.map (fun a => (Detect.sigColorShapePos a, a)))
      = Detect.lookupS (Detect.sigColorPos o)
        (before.map (fun a => (Detect.sigColorPos a, a))) := by
    intro o ho
    exact Detect.lookupS_map_congr Detect.sigColorShapePos Detect.sigColorPos o before
      (fun a ha => Detect.sig_iff a o (hshapeB a ha) (hshapeA o ho))
  have hmain : Detect.aisthesis_compare_objects before after
      = Detect.compare_objects before after := by
    unfold Detect.aisthesis_compare_objects Detect.compare_objects Detect.compareWith
    dsimp only
    rw [hbmA, hamA, hbmB, hamB]
    rw [List.filterMap_map, List.filterMap_map, List.filterMap_map,
      List.filterMap_map, List.filterMap_map, List.filterMap_map]
    have e1 : List.filterMap
        ((fun kv : (ℤ × Detect.Shape × List Detect.Pos) × Detect.SimpleObject =>
            Detect.lookupS kv.1
              (after.map (fun a => (Detect.sigColorShapePos a, a))))
          ∘ (fun o => (Detect.sigColorShapePos o, o))) before
        = List.filterMap
        ((fun kv : (ℤ × List Detect.Pos) × Detect.SimpleObject =>
            Detect.lookupS kv.1 (after.map (fun a => (Detect.sigColorPos a, a))))
          ∘ (fun o => (Detect.sigColorPos o, o))) before := by
      apply List.filterMap_congr
      intro o ho
      simp only [Function.comp_apply]
      exact hlookA o ho
    have e2 : List.filterMap
        ((fun kv : (ℤ × Detect.Shape × List Detect.Pos) × Detect.SimpleObject =>
            if (Detect.lookupS kv.1
                (after.map (fun a => (Detect.sigColorShapePos a, a)))).isSome
            then none else some kv.2)
          ∘ (fun o => (Detect.sigColorShapePos o, o))) before
        = List.filterMap
        ((fun kv : (ℤ × List Detect.Pos) × Detect.SimpleObject =>
            if (Detect.lookupS kv.1
                (after.map (fun a => (Detect.sigColorPos a, a)))).isSome
            then none else some kv.2)
          ∘ (fun o => (Detect.sigColorPos o, o))) before := by
      apply List.filterMap_congr
      intro o ho
      simp only [Function.comp_apply]
      rw [hlookA o ho]
    have e3 : List.filterMap
        ((fun kv : (ℤ × Detect.Shape × List Detect.Pos) × Detect.SimpleObject =>
            if (Detect.lookupS kv.1
                (before.map (fun a => (Detect.sigColorShapePos a, a)))).isSome
            then none else some kv.2)
          ∘ (fun o => (Detect.sigColorShapePos o, o))) after
        = List.filterMap
        ((fun kv : (ℤ × List Detect.Pos) × Detect.SimpleObject =>
            if (Detect.lookupS kv.1
                (before.map (fun a => (Detect.sigColorPos a, a)))).isSome
            then none else some kv.2)
          ∘ (fun o => (Detect.sigColorPos o, o))) after := by
      apply List.filterMap_congr
      intro o ho
      simp only [Function.comp_apply]
      rw [hlookB o ho]
    rw [e1, e2, e3]
  refine ⟨hmain, ?_, ?_⟩
  · -- unchanged membership characterization
    intro o
    unfold Detect.compare_objects Detect.compareWith
    dsimp only
    rw [hbmA, hamA, List.filterMap_map, List.mem_filterMap]
    constructor
    · rintro ⟨ob, hob, hlk⟩
      simp only [Function.comp_apply] at hlk
      obtain ⟨hoin, hsig⟩ := Detect.lookupS_map_some Detect.sigColorPos _ o after hlk
      exact ⟨hoin, ob, hob, hsig.symm⟩
    · rintro ⟨hoin, ob, hob, hsig⟩
      refine ⟨ob, hob, ?_⟩
      simp only [Function.comp_apply]
      rw [hsig]
      exact Detect.lookupS_map_self Detect.sigColorPos after hndA o hoin
  · -- changed membership characterization
    intro o
    unfold Detect.compare_objects Detect.compareWith
    dsimp only
    rw [hbmA, hamA, List.filterMap_map, List.filterMap_map, List.mem_append,
      List.mem_filterMap, List.mem_filterMap]
    constructor
    · rintro (⟨ob, hob, hlk⟩ | ⟨oa, hoa, hlk⟩)
      · simp only [Function.comp_apply] at hlk
        by_cases hs : (Detect.lookupS (Detect.sigColorPos ob)
            (after.map (fun a => (Detect.sigColorPos a, a)))).isSome
        · rw [if_pos hs] at hlk
          exact absurd hlk (by simp)
        · rw [if_neg hs] at hlk
          have hobo : ob = o := by injection hlk
          subst hobo
          left
          refine ⟨hob, ?_⟩
          intro oa hoa hc
          apply hs
          have : Detect.lookupS (Detect.sigColorPos ob)
              (after.map (fun a => (Detect.sigColorPos a, a))) = some oa := by
            rw [← hc]
            exact Detect.lookupS_map_self Detect.sigColorPos after hndA oa hoa
          rw [this]
          simp
      · simp only [Function.comp_apply] at hlk
        by_cases hs : (Detect.lookupS (Detect.sigColorPos oa)
            (before.map (fun a => (Detect.sigColorPos a, a)))).isSome
        · rw [if_pos hs] at hlk
          exact absurd hlk (by simp)
        · rw [if_neg hs] at hlk
          have hoao : oa = o := by injection hlk
          subst hoao
          right
          refine ⟨hoa, ?_⟩
          intro ob hob hc
          apply hs
          have : Detect.lookupS (Detect.sigColorPos oa)
              (before.map (fun a => (Detect.sigColorPos a, a))) = some ob := by
            rw [← hc]
            exact Detect.lookupS_map_self Detect.sigColorPos before hndB ob hob
          rw [this]
          simp
    · rintro (⟨hoin, hnomatch⟩ | ⟨hoin, hnomatch⟩)
      · left
        refine ⟨o, hoin, ?_⟩
        simp only [Function.comp_apply]
        rw [if_neg ?_]
        · intro hc
          rw [(Detect.lookupS_map_eq_none_iff Detect.sigColorPos _ after).mpr
            hnomatch] at hc
          simp at hc
      · right
        refine ⟨o, hoin, ?_⟩
        simp only [Function.comp_apply]
        rw [if_neg ?_]
        · intro hc
          rw [(Detect.lookupS_map_eq_none_iff Detect.sigColorPos _ before).mpr
            hnomatch] at hc
          simp at hc

/-- Witness for C8 on two concrete one-object frames whose shape fields are
computed from their positions. -/
theorem C8_matchers_agree_and_signature_matching_witness :
    Detect.aisthesis_compare_objects [Detect.mkObject 1 1 [((0 : ℤ), (0 : ℤ))]]
        [Detect.mkObject 1 3 [((0 : ℤ), (1 : ℤ))]]
      = Detect.compare_objects [Detect.mkObject 1 1 [((0 : ℤ), (0 : ℤ))]]
        [Detect.mkObject 1 3 [((0 : ℤ), (1 : ℤ))]] :=
  (C8_matchers_agree_and_signature_matching
    [Detect.mkObject 1 1 [((0 : ℤ), (0 : ℤ))]]
    [Detect.mkObject 1 3 [((0 : ℤ), (1 : ℤ))]]
    (by
      intro o ho
      simp only [List.cons_append, List.nil_append, List.mem_cons,
        List.not_mem_nil, or_false] at ho
      rcases ho with h | h <;> subst h <;> rfl)
    (List.pairwise_singleton _ _)
    (List.pairwise_singleton _ _)).1

/-- Claim C7: every object returned by the detector has a non-empty position
set, all positions are in bounds and hold the same non-background color in
the grid, and the position set is 4-connected: any two of its positions are
joined by a chain of horizontal/vertical adjacencies staying within the
set. -/
theorem C7_detected_objects_wellformed
    (g : List (List ℤ)) (o : Detect.SimpleObject)
    (ho : o ∈ Detect.detect_simple_objects g) :
    o.positions ≠ [] ∧
    (∀ p ∈ o.positions, Detect.inB g p ∧ Detect.cellVal g p ≠ 0) ∧
    (∀ p ∈ o.positions, ∀ q ∈ o.positions,
      Detect.cellVal g p = Detect.cellVal g q) ∧
    (∀ p ∈ o.positions, ∀ q ∈ o.positions,
      Detect.Chain {x | x ∈ o.positions} p q) := by
  obtain ⟨hne, ⟨v, hv0, hkey, hval⟩, hconn⟩ :=
    (Detect.detect_simple_objects_inv g).1 o ho
  refine ⟨hne, ?_, ?_, hconn⟩
  · intro p hp
    refine ⟨(hval p hp).1, ?_⟩
    rw [(hval p hp).2]
    exact hv0
  · intro p hp q hq
    rw [(hval p hp).2, (hval q hq).2]

/-- Evaluation of the detector on the 1×1 grid `[[1]]`: a single
single-pixel object. -/
theorem detect_singleton_eval :
    Detect.detect_simple_objects [[1]]
      = [Detect.mkObject 1 1 [((0 : ℤ), (0 : ℤ))]] := by
  have hscan : Detect.scanCells [[1]] = [((0 : ℤ), (0 : ℤ))] := by decide
  have hflood : Detect.flood_fill_simple [[1]] ∅ ((0 : ℤ), (0 : ℤ)) 1
      = ([((0 : ℤ), (0 : ℤ))], {((0 : ℤ), (0 : ℤ))}) := by
    unfold Detect.flood_fill_simple
    rw [if_pos (by decide)]
    rw [Detect.floodLoop, dif_pos (by decide)]
    rw [Detect.floodLoop, dif_neg (by decide)]
    rw [Detect.floodLoop, dif_neg (by decide)]
    rw [Detect.floodLoop, dif_neg (by decide)]
    rw [Detect.floodLoop, dif_neg (by decide)]
    rw [Detect.floodLoop]
    simp
  unfold Detect.detect_simple_objects
  rw [if_pos (by decide), hscan, List.foldl_cons, List.foldl_nil]
  unfold Detect.detectStep
  rw [if_pos (by decide)]
  have hcv : Detect.cellVal [[1]] ((0 : ℤ), (0 : ℤ)) = 1 := by decide
  rw [hcv, hflood]
  rw [if_neg (by decide)]
  simp

/-- Witness for C7 at the grid `[[1]]` and its unique detected object. -/
theorem C7_detected_objects_wellformed_witness :
    (Detect.mkObject 1 1 [((0 : ℤ), (0 : ℤ))]).positions ≠ [] ∧
    (∀ p ∈ (Detect.mkObject 1 1 [((0 : ℤ), (0 : ℤ))]).positions,
      Detect.inB [[1]] p ∧ Detect.cellVal [[1]] p ≠ 0) ∧
    (∀ p ∈ (Detect.mkObject 1 1 [((0 : ℤ), (0 : ℤ))]).positions,
      ∀ q ∈ (Detect.mkObject 1 1 [((0 : ℤ), (0 : ℤ))]).positions,
        Detect.cellVal [[1]] p = Detect.cellVal [[1]] q) ∧
    (∀ p ∈ (Detect.mkObject 1 1 [((0 : ℤ), (0 : ℤ))]).positions,
      ∀ q ∈ (Detect.mkObject 1 1 [((0 : ℤ), (0 : ℤ))]).positions,
        Detect.Chain
          {x | x ∈ (Detect.mkObject 1 1 [((0 : ℤ), (0 : ℤ))]).positions} p q) :=
  C7_detected_objects_wellformed [[1]] (Detect.mkObject 1 1 [((0 : ℤ), (0 : ℤ))])
    (by rw [detect_singleton_eval]; exact List.mem_singleton_self _)

/-- Witness for C10 at the concrete initial curiosity 0.8 and a concrete
update sequence. -/
theorem C10_curiosity_never_increases_and_floored_witness :
    1/10 ≤ Logos.initialCuriosity ∧
    (1/10 ≤ Logos.curiosityAfter Logos.initialCuriosity
        [Logos.ProgressType.NO_EFFECT, Logos.ProgressType.VALID_ACTION] ∧
      Logos.curiosityAfter Logos.initialCuriosity
        [Logos.ProgressType.NO_EFFECT, Logos.ProgressType.VALID_ACTION]
        ≤ Logos.initialCuriosity) := by
  constructor
  · norm_num [Logos.initialCuriosity]
  · exact (C10_curiosity_never_increases_and_floored Logos.initialCuriosity
      (by norm_num [Logos.initialCuriosity])
      [Logos.ProgressType.NO_EFFECT, Logos.ProgressType.VALID_ACTION]).2
